import Mathlib

/-!
Verification of the rustyknife mail-header parsing library.

The Rust sources are shallowly embedded: byte slices become `List Nat`
(each element a byte value), nom parsers become functions
`List Nat → Option (α × List Nat)`, and the external library services
(`encoding_rs`, the `charset` crate, the `base64` crate) are modelled by
executable Lean functions covering the behaviour the claims need.
-/

namespace RustyKnife

/-! ## External service model: UTF-8 encoding and decoding

`encoding_rs`'s UTF-8 decoder follows the WHATWG incremental decoder with
"replace" error mode (maximal-subpart replacement).  `utf8Lossy` is a direct
functional rendering of that decoder. -/

/-- A UTF-8 continuation byte. -/
def contByte (c : Nat) : Prop := 0x80 ≤ c ∧ c ≤ 0xBF

instance (c : Nat) : Decidable (contByte c) := by unfold contByte; infer_instance

/-- Admissible second byte of a three-byte sequence with lead `b`
(WHATWG's lead-dependent continuation ranges). -/
def cont3 (b c : Nat) : Prop :=
  (if b = 0xE0 then 0xA0 else 0x80) ≤ c ∧ c ≤ (if b = 0xED then 0x9F else 0xBF)

instance (b c : Nat) : Decidable (cont3 b c) := by unfold cont3; infer_instance

/-- Admissible second byte of a four-byte sequence with lead `b`. -/
def cont4 (b c : Nat) : Prop :=
  (if b = 0xF0 then 0x90 else 0x80) ≤ c ∧ c ≤ (if b = 0xF4 then 0x8F else 0xBF)

instance (b c : Nat) : Decidable (cont4 b c) := by unfold cont4; infer_instance

/-- WHATWG UTF-8 decode with replacement (the behaviour of `encoding_rs`'
UTF-8 `decode_without_bom_handling`). -/
def utf8Lossy : List Nat → List Char
  | [] => []
  | b :: rest =>
    if b ≤ 0x7F then Char.ofNat b :: utf8Lossy rest
    else if b < 0xC2 then '�' :: utf8Lossy rest
    else if b ≤ 0xDF then
      match rest with
      | [] => ['�']
      | c :: r2 =>
        if contByte c then
          Char.ofNat ((b - 0xC0) * 64 + (c - 0x80)) :: utf8Lossy r2
        else '�' :: utf8Lossy (c :: r2)
    else if b ≤ 0xEF then
      match rest with
      | [] => ['�']
      | c :: r2 =>
        if cont3 b c then
          match r2 with
          | [] => ['�']
          | d :: r3 =>
            if contByte d then
              Char.ofNat ((b - 0xE0) * 4096 + (c - 0x80) * 64 + (d - 0x80)) :: utf8Lossy r3
            else '�' :: utf8Lossy (d :: r3)
        else '�' :: utf8Lossy (c :: r2)
    else if b ≤ 0xF4 then
      match rest with
      | [] => ['�']
      | c :: r2 =>
        if cont4 b c then
          match r2 with
          | [] => ['�']
          | d :: r3 =>
            if contByte d then
              match r3 with
              | [] => ['�']
              | e :: r4 =>
                if contByte e then
                  Char.ofNat ((b - 0xF0) * 262144 + (c - 0x80) * 4096 +
                    (d - 0x80) * 64 + (e - 0x80)) :: utf8Lossy r4
                else '�' :: utf8Lossy (e :: r4)
            else '�' :: utf8Lossy (d :: r3)
        else '�' :: utf8Lossy (c :: r2)
    else '�' :: utf8Lossy rest

/-- The standard UTF-8 encoding of a single character. -/
def utf8EncodeChar (c : Char) : List Nat :=
  let n := c.toNat
  if n < 0x80 then [n]
  else if n < 0x800 then [0xC0 + n / 64, 0x80 + n % 64]
  else if n < 0x10000 then [0xE0 + n / 4096, 0x80 + n / 64 % 64, 0x80 + n % 64]
  else [0xF0 + n / 262144, 0x80 + n / 4096 % 64, 0x80 + n / 64 % 64, 0x80 + n % 64]

/-- UTF-8 encoding of a character list. -/
def utf8Encode (cs : List Char) : List Nat := (cs.map utf8EncodeChar).flatten

/-- The UTF-8 bytes of a string (model of Rust `str::as_bytes`). -/
def strBytes (s : String) : List Nat := utf8Encode s.data

/-- Model of the `charset` crate's `decode_ascii`: non-ASCII bytes become
replacement characters. -/
def decode_ascii (bs : List Nat) : String := String.mk (bs.map (fun b => if b ≤ 0x7F then Char.ofNat b else '�'))

/-- ASCII lowercasing of a byte. -/
def asciiLowerByte (b : Nat) : Nat := if 0x41 ≤ b ∧ b ≤ 0x5A then b + 0x20 else b

/-- ASCII lowercasing of a character.  All strings this is applied to in the
embedding come from ASCII-only grammars (`token` / `attribute` characters),
where Rust's Unicode `str::to_lowercase` coincides with ASCII lowercasing. -/
def asciiLowerChar (c : Char) : Char :=
  if 65 ≤ c.toNat ∧ c.toNat ≤ 90 then Char.ofNat (c.toNat + 32) else c

/-- Model of Rust `str::to_lowercase` (exact on the ASCII-only strings produced
by the grammars in this crate). -/
def lowerStr (s : String) : String := String.mk (s.data.map asciiLowerChar)

/-! ## The nom combinator model

A nom parser over `&[u8]` with `()` errors becomes
`List Nat → Option (α × List Nat)`; `none` is a match failure, and
`some (v, rest)` is a success returning `v` with `rest` the unconsumed input.
`many0`/`fold_many0` carry explicit fuel (they terminate in nom because each
iteration must consume input; the fuel `length + 1` can therefore never be
exhausted on a successful run, and a parser looping without consuming is an
error in nom, which the fuel model also maps to `none`). -/

namespace Nom

def Parser (α : Type) : Type := List Nat → Option (α × List Nat)

def tag (t : List Nat) : Parser (List Nat) := fun input =>
  if t.isPrefixOf input then some (t, input.drop t.length) else none

/-- nom `tag_no_case` (ASCII case-insensitive). -/
def tagNoCase (t : List Nat) : Parser (List Nat) := fun input =>
  if t.length ≤ input.length ∧
      (input.take t.length).map asciiLowerByte = t.map asciiLowerByte then
    some (input.take t.length, input.drop t.length)
  else none

def map (p : Parser α) (f : α → β) : Parser β := fun input =>
  (p input).map (fun x => (f x.1, x.2))

def mapOpt (p : Parser α) (f : α → Option β) : Parser β := fun input =>
  match p input with
  | some (a, r) => match f a with
    | some b => some (b, r)
    | none => none
  | none => none

def alt (p q : Parser α) : Parser α := fun input =>
  match p input with
  | some x => some x
  | none => q input

def opt (p : Parser α) : Parser (Option α) := fun input =>
  match p input with
  | some (a, r) => some (some a, r)
  | none => some (none, input)

def pair (p : Parser α) (q : Parser β) : Parser (α × β) := fun input =>
  match p input with
  | some (a, r) =>
    match q r with
    | some (b, r2) => some ((a, b), r2)
    | none => none
  | none => none

def preceded (p : Parser α) (q : Parser β) : Parser β := map (pair p q) Prod.snd

def terminated (p : Parser α) (q : Parser β) : Parser α := map (pair p q) Prod.fst

def delimited (p : Parser α) (q : Parser β) (r : Parser γ) : Parser β :=
  preceded p (terminated q r)

def separatedPair (p : Parser α) (sep : Parser γ) (q : Parser β) : Parser (α × β) :=
  pair (terminated p sep) q

def verify (p : Parser α) (pred : α → Bool) : Parser α := fun input =>
  match p input with
  | some (a, r) => if pred a then some (a, r) else none
  | none => none

def takeN (n : Nat) : Parser (List Nat) := fun input =>
  if n ≤ input.length then some (input.take n, input.drop n) else none

def take1Filter (pred : Nat → Bool) : Parser Nat := fun input =>
  match input with
  | [] => none
  | b :: r => if pred b then some (b, r) else none

def takeWhile1 (pred : Nat → Bool) : Parser (List Nat) := fun input =>
  match input.takeWhile pred with
  | [] => none
  | t => some (t, input.drop t.length)

def takeWhileMN (m n : Nat) (pred : Nat → Bool) : Parser (List Nat) := fun input =>
  let t := (input.takeWhile pred).take n
  if m ≤ t.length then some (t, input.drop t.length) else none

def many0Fuel (p : Parser α) : Nat → Parser (List α)
  | 0 => fun _ => none
  | fuel + 1 => fun input =>
    match p input with
    | none => some ([], input)
    | some (a, rest) =>
      if rest.length < input.length then
        match many0Fuel p fuel rest with
        | some (as, r2) => some (a :: as, r2)
        | none => none
      else none

def many0 (p : Parser α) : Parser (List α) := fun input =>
  many0Fuel p (input.length + 1) input

def many1 (p : Parser α) : Parser (List α) := fun input =>
  match many0 p input with
  | some ([], _) => none
  | some (as, r) => some (as, r)
  | none => none

def recognizeP (p : Parser α) : Parser (List Nat) := fun input =>
  match p input with
  | some (_, rest) => some (input.take (input.length - rest.length), rest)
  | none => none

def recognizeMany0 (p : Parser α) : Parser (List Nat) := recognizeP (many0 p)

def recognizeMany1 (p : Parser α) : Parser (List Nat) := recognizeP (many1 p)

def allConsuming (p : Parser α) : Parser α := fun input =>
  match p input with
  | some (a, []) => some (a, [])
  | _ => none

end Nom

open Nom

/-! ## External service model: `encoding_rs` codecs

Only the codecs exercised by the claims are modelled (`UTF-8` and
`windows-1252` with their `encoding_rs` label aliases); every other label is
unrecognized, which the code paths under test treat identically. -/

/-- The WHATWG windows-1252 decode table (identity outside 0x80–0x9F). -/
def windows1252Char (b : Nat) : Char :=
  if b ≤ 0x7F ∨ 0xA0 ≤ b then Char.ofNat b
  else Char.ofNat (match b with
    | 0x80 => 0x20AC | 0x81 => 0x81   | 0x82 => 0x201A | 0x83 => 0x192
    | 0x84 => 0x201E | 0x85 => 0x2026 | 0x86 => 0x2020 | 0x87 => 0x2021
    | 0x88 => 0x2C6  | 0x89 => 0x2030 | 0x8A => 0x160  | 0x8B => 0x2039
    | 0x8C => 0x152  | 0x8D => 0x8D   | 0x8E => 0x17D  | 0x8F => 0x8F
    | 0x90 => 0x90   | 0x91 => 0x2018 | 0x92 => 0x2019 | 0x93 => 0x201C
    | 0x94 => 0x201D | 0x95 => 0x2022 | 0x96 => 0x2013 | 0x97 => 0x2014
    | 0x98 => 0x2DC  | 0x99 => 0x2122 | 0x9A => 0x161  | 0x9B => 0x203A
    | 0x9C => 0x153  | 0x9D => 0x9D   | 0x9E => 0x17E  | _ => 0x178)

/-- The modelled subset of `encoding_rs` encodings. -/
inductive Encoding where
  | utf8
  | windows1252
deriving DecidableEq

/-- Model of `Encoding::for_label`: ASCII-lowercase the label and look it up
in the WHATWG label table (restricted to the two modelled encodings; note
that `us-ascii` and the latin-1 labels resolve to windows-1252 there). -/
def Encoding.forLabel (label : List Nat) : Option Encoding :=
  let l := label.map asciiLowerByte
  if l = strBytes "utf-8" ∨ l = strBytes "utf8" ∨ l = strBytes "unicode-1-1-utf-8" then
    some .utf8
  else if l = strBytes "windows-1252" ∨ l = strBytes "iso-8859-1" ∨ l = strBytes "latin1" ∨
      l = strBytes "l1" ∨ l = strBytes "us-ascii" ∨ l = strBytes "ascii" ∨
      l = strBytes "cp1252" ∨ l = strBytes "iso8859-1" ∨ l = strBytes "csisolatin1" then
    some .windows1252
  else none

/-- Model of `decode_without_bom_handling` for the modelled encodings. -/
def Encoding.decodeWithoutBomHandling : Encoding → List Nat → String
  | .utf8, bs => String.mk (utf8Lossy bs)
  | .windows1252, bs => String.mk (bs.map windows1252Char)

/-! ## rfc3461.rs — shared hex-pair primitive -/

namespace Rfc3461

def isHexDigitByte (c : Nat) : Bool :=
  decide ((0x30 ≤ c ∧ c ≤ 0x39) ∨ (0x41 ≤ c ∧ c ≤ 0x46) ∨ (0x61 ≤ c ∧ c ≤ 0x66))

def hexDigitVal (c : Nat) : Nat :=
  if c ≤ 0x39 then c - 0x30 else if c ≤ 0x46 then c - 0x37 else c - 0x57

/-- `hexpair`: two ASCII hex digits parsed as one byte. -/
def hexpair : Parser Nat :=
  Nom.map (verify (takeN 2) (fun bs => bs.all isHexDigitByte))
    (fun bs => hexDigitVal (bs.headD 0) * 16 + hexDigitVal ((bs.drop 1).headD 0))

/-- rfc3461 `xchar`. -/
def xchar : Parser Nat :=
  take1Filter (fun c => decide (33 ≤ c ∧ c ≤ 42 ∨ 44 ≤ c ∧ c ≤ 60 ∨ 62 ≤ c ∧ c ≤ 126))

/-- rfc3461 `hexchar`: `+` followed by a hex pair. -/
def hexchar : Parser Nat := preceded (tag (strBytes "+")) hexpair

/-- rfc3461 `xtext`. -/
def xtext : Parser (List Nat) := many0 (alt xchar hexchar)

/-- rfc3461 `_printable_xtext`: xtext whose decoded bytes are printable. -/
def _printable_xtext : Parser (List Nat) :=
  verify xtext (fun xt => xt.all (fun c => decide (9 ≤ c ∧ c ≤ 13 ∨ 32 ≤ c ∧ c ≤ 126)))

/-- rfc3461 `DSNRet`. -/
inductive DSNRet where
  | full
  | hdrs
deriving DecidableEq

/-- rfc3461 `DSNMailParams`. -/
structure DSNMailParams where
  envid : Option String
  ret : Option DSNRet
deriving DecidableEq

/-- rfc3461 `Param`. -/
abbrev Param : Type := String × Option String

/-- The loop body of `dsn_mail_params`, with the accumulated leftover list and
the two option slots as explicit state. -/
def dsnGo : List Param → List Param → Option String → Option DSNRet →
    Except String (DSNMailParams × List Param)
  | [], out, envid_val, ret_val => .ok ({ envid := envid_val, ret := ret_val }, out)
  | (name, value) :: rest, out, envid_val, ret_val =>
    if lowerStr name = "ret" then
      match value with
      | some v =>
        if ret_val.isSome then .error "Duplicate RET"
        else if lowerStr v = "full" then dsnGo rest out envid_val (some .full)
        else if lowerStr v = "hdrs" then dsnGo rest out envid_val (some .hdrs)
        else .error "Invalid RET"
      | none => .error "RET without value"
    else if lowerStr name = "envid" then
      match value with
      | some v =>
        if envid_val.isSome then .error "Duplicate ENVID"
        else if 100 < (strBytes v).length then .error "ENVID over 100 bytes"
        else match allConsuming _printable_xtext (strBytes v) with
          | some (parsed, _) => dsnGo rest out (some (decode_ascii parsed)) ret_val
          | none => .error "Invalid ENVID"
      | none => .error "ENVID without value"
    else dsnGo rest (out ++ [(name, value)]) envid_val ret_val

/-- rfc3461 `dsn_mail_params`. -/
def dsn_mail_params (input : List Param) : Except String (DSNMailParams × List Param) :=
  dsnGo input [] none none


/-! Claim-side predicates for C7: the error conditions of `dsn_mail_params`
expressed over the input list alone. -/


def retNamed (p : Param) : Prop := lowerStr p.1 = "ret"
def envidNamed (p : Param) : Prop := lowerStr p.1 = "envid"
def validRetVal (v : String) : Prop := lowerStr v = "full" ∨ lowerStr v = "hdrs"
def validEnvidVal (v : String) : Prop :=
  (strBytes v).length ≤ 100 ∧ (allConsuming _printable_xtext (strBytes v)).isSome = true

instance : DecidablePred retNamed := fun p => by unfold retNamed; infer_instance
instance : DecidablePred envidNamed := fun p => by unfold envidNamed; infer_instance
instance : DecidablePred validRetVal := fun v => by unfold validRetVal; infer_instance
instance : DecidablePred validEnvidVal := fun v => by unfold validEnvidVal; infer_instance

def badValue (valid : String → Prop) : Option String → Prop
  | none => True
  | some v => ¬ valid v

instance (valid : String → Prop) [DecidablePred valid] (o : Option String) :
    Decidable (badValue valid o) := by
  cases o with
  | none => exact .isTrue trivial
  | some v => unfold badValue; infer_instance

def condS (l : List Param) (envidSet retSet : Bool) : Prop :=
  (if retSet then 1 else 2) ≤ l.countP (fun p => decide (retNamed p)) ∨
  (if envidSet then 1 else 2) ≤ l.countP (fun p => decide (envidNamed p)) ∨
  (∃ p ∈ l, retNamed p ∧ badValue validRetVal p.2) ∨
  (∃ p ∈ l, envidNamed p ∧ badValue validEnvidVal p.2)

/-- C7 claim-side predicate: the named error conditions over the input list. -/
def dsnErrorCondition (input : List Param) : Prop :=
  2 ≤ input.countP (fun p => decide (retNamed p)) ∨
  2 ≤ input.countP (fun p => decide (envidNamed p)) ∨
  (∃ p ∈ input, retNamed p ∧ badValue validRetVal p.2) ∨
  (∃ p ∈ input, envidNamed p ∧ badValue validEnvidVal p.2)

instance (input : List Param) : Decidable (dsnErrorCondition input) := by
  unfold dsnErrorCondition; infer_instance

end Rfc3461

/-! ## External service model: the `base64` crate's `STANDARD` engine
(canonical padding required, trailing bits must be zero). -/

def b64Val (c : Nat) : Option Nat :=
  if 0x41 ≤ c ∧ c ≤ 0x5A then some (c - 0x41)
  else if 0x61 ≤ c ∧ c ≤ 0x7A then some (c - 0x47)
  else if 0x30 ≤ c ∧ c ≤ 0x39 then some (c + 4)
  else if c = 0x2B then some 62
  else if c = 0x2F then some 63
  else none

def base64Decode : List Nat → Option (List Nat)
  | [] => some []
  | a :: b :: c :: d :: rest =>
    match b64Val a, b64Val b with
    | some va, some vb =>
      match c, d with
      | 61, 61 =>
        if rest = [] ∧ vb % 16 = 0 then some [va * 4 + vb / 16] else none
      | c, 61 =>
        match b64Val c with
        | some vc =>
          if rest = [] ∧ vc % 4 = 0 then
            some [va * 4 + vb / 16, vb % 16 * 16 + vc / 4]
          else none
        | none => none
      | c, d =>
        match b64Val c, b64Val d with
        | some vc, some vd =>
          (base64Decode rest).map
            (fun tl => (va * 4 + vb / 16) :: (vb % 16 * 16 + vc / 4) :: (vc % 4 * 64 + vd) :: tl)
        | _, _ => none
    | _, _ => none
  | _ => none

/-- Model of `str::from_utf8(..).unwrap()` applied to byte runs that the
grammar guarantees are ASCII. -/
def asciiStr (bs : List Nat) : String := String.mk (bs.map Char.ofNat)

/-! ## rfc5234.rs — core ABNF terminals -/

namespace Rfc5234

def sp : Parser (List Nat) := tag (strBytes " ")

def htab : Parser (List Nat) := tag (strBytes "\t")

/-- rfc5234 `wsp`: a single space or horizontal tab byte (`|x| x[0]`). -/
def wsp : Parser Nat := Nom.map (alt sp htab) (fun x => x.headD 0)

def crlf : Parser (List Nat) := tag (strBytes "\r\n")

end Rfc5234

/-- Space-or-tab predicate (the bytes `wsp` accepts). -/
def isWsp (b : Nat) : Bool := b == 32 || b == 9

/-! ## rfc2047.rs — encoded words -/

namespace Rfc2047

def isAsciiGraphic (c : Nat) : Bool := decide (0x21 ≤ c ∧ c ≤ 0x7E)

/-- rfc2047 `token`. -/
def token : Parser (List Nat) :=
  takeWhile1 (fun c => isAsciiGraphic c && !((strBytes "()<>@,;:\\\"/[]?.=").contains c))

/-- rfc2047 `encoded_text`. -/
def encoded_text : Parser (List Nat) :=
  takeWhile1 (fun c => isAsciiGraphic c && c != 0x3F)

/-- rfc2047 `_qp_encoded_text`. -/
def _qp_encoded_text : Parser (List Nat) :=
  many0 (alt (preceded (tag (strBytes "=")) Rfc3461.hexpair)
    (alt (Nom.map (tag (strBytes "_")) (fun _ => 0x20)) (take1Filter (fun _ => true))))

/-- rfc2047 `decode_qp`. -/
def decode_qp (input : List Nat) : Option (List Nat) :=
  match allConsuming _qp_encoded_text input with
  | some (o, _) => some o
  | none => none

/-- rfc2047 `decode_text`: undoes the Q or B encoding, `none` on failure or
unknown encoding letter. -/
def decode_text (encoding text : List Nat) : Option (List Nat) :=
  if encoding = [0x71] ∨ encoding = [0x51] then decode_qp text
  else if encoding = [0x62] ∨ encoding = [0x42] then base64Decode text
  else none

/-- rfc2047 `EncodedWord`. -/
structure EncodedWord where
  charset : String
  bytes : List Nat
deriving DecidableEq

/-- The `=?charset[*lang]?enc?text?=` frame of `encoded_word`
(the `tuple((...))` inside it). -/
def encoded_word_frame : Parser (List Nat × Option (List Nat) × List Nat × List Nat) :=
  pair (preceded (tag (strBytes "=?")) token)
    (pair (opt (preceded (tag (strBytes "*")) token))
      (pair (delimited (tag (strBytes "?")) token (tag (strBytes "?")))
        (terminated encoded_text (tag (strBytes "?=")))))

/-- rfc2047 `encoded_word`. -/
def encoded_word : Parser EncodedWord :=
  Nom.map encoded_word_frame
    (fun x => ⟨decode_ascii x.1, ((decode_text x.2.2.1 x.2.2.2).getD x.2.2.2 : List Nat)⟩)

/-- rfc2047 `EncodedWord::decode`. -/
def EncodedWord.decode (ew : EncodedWord) : String :=
  ((Encoding.forLabel (strBytes ew.charset)).getD .utf8).decodeWithoutBomHandling ew.bytes

end Rfc2047

/-! ## rfc5322.rs — display-name word joining (`Text`, `_concat_atom_and_qs`)
and folding whitespace -/

namespace Rfc5322

/-- rfc5322 `fws`: optional (wsp-run CRLF) then mandatory wsp-run; the
returned string is the concatenation of the two wsp runs (the CRLF is
"semantically invisible"). -/
def fws : Parser String :=
  Nom.map
    (pair (opt (terminated (recognizeMany0 Rfc5234.wsp) Rfc5234.crlf))
      (recognizeMany1 Rfc5234.wsp))
    (fun x => match x.1 with
      | some a => asciiStr (a ++ x.2)
      | none => asciiStr x.2)

/-- rfc5322 `ofws`: optional FWS, empty string when absent. -/
def ofws : Parser String := Nom.map (opt fws) (fun i => i.getD "")

/-- rfc5322 `Text`. -/
inductive Text where
  | literal (s : String)
  | atom (s : String)
deriving DecidableEq

/-- The `From<&Text> for &str` conversion. -/
def Text.toStr : Text → String
  | .literal s => s
  | .atom s => s

/-- rfc5322 `_concat_atom_and_qs`, the display-name word joiner.  The second
arm mirrors the source exactly: when the current token is not an atom but the
peeked token is `Atom(v)`, the source pushes `v` (the peeked atom's text) and
a space, and only consumes the current token. -/
def _concat_atom_and_qs : List Text → String
  | [] => ""
  | [t] => t.toStr
  | .atom v :: t2 :: rest => v ++ " " ++ _concat_atom_and_qs (t2 :: rest)
  | _ :: .atom v :: rest => v ++ " " ++ _concat_atom_and_qs (.atom v :: rest)
  | t1 :: t2 :: rest => t1.toStr ++ _concat_atom_and_qs (t2 :: rest)

end Rfc5322


namespace Rfc5234

/-- rfc5234 `vchar`. -/
def vchar : Parser Char :=
  Nom.map (take1Filter (fun c => decide (0x21 ≤ c ∧ c ≤ 0x7E))) (fun b => Char.ofNat b)

end Rfc5234

/-! ## rfc5322.rs — comments, CFWS and quoted strings (the `Intl` policy,
with the `quoted-string-rfc2047` feature disabled; the claims below are
independent of that cargo feature). -/

namespace Rfc5322

/-- rfc5322 `_single_char(len)`: exactly `len` bytes forming exactly one
character under `str::from_utf8`. -/
def _single_char (len : Nat) : Parser Char :=
  mapOpt (takeN len) (fun bs =>
    match utf8Lossy bs with
    | [c] => if utf8EncodeChar c = bs then some c else none
    | _ => none)

/-- rfc5322 `utf8_non_ascii`. -/
def utf8_non_ascii : Parser Char :=
  alt (_single_char 4) (alt (_single_char 3) (_single_char 2))

/-- rfc5322 `_8bit_char`: any byte ≥ 0x80 becomes a replacement character. -/
def _8bit_char : Parser Char :=
  Nom.map (take1Filter (fun c => decide (0x80 ≤ c))) (fun _ => '�')

/-- `Intl::vchar`. -/
def intlVchar : Parser Char := alt Rfc5234.vchar utf8_non_ascii

/-- `Intl::ctext`. -/
def intlCtext : Parser Char :=
  alt
    (Nom.map (take1Filter (fun c => decide (0x21 ≤ c ∧ c ≤ 0x7E ∧ c ≠ 40 ∧ c ≠ 41 ∧ c ≠ 92)))
      (fun b => Char.ofNat b))
    utf8_non_ascii

/-- `Intl::qtext`. -/
def intlQtext : Parser Char :=
  alt
    (Nom.map (take1Filter (fun c => decide (0x21 ≤ c ∧ c ≤ 0x7E ∧ c ≠ 34 ∧ c ≠ 92)))
      (fun b => Char.ofNat b))
    (alt utf8_non_ascii _8bit_char)

/-- rfc5322 `quoted_pair::<Intl>`. -/
def quoted_pair : Parser Char :=
  preceded (tag (strBytes "\\")) (alt intlVchar (Nom.map Rfc5234.wsp (fun b => Char.ofNat b)))

/-- rfc5322 `CommentContent`. -/
inductive CommentContent where
  | text (s : String)
  | comment (l : List CommentContent)
  | qp (c : Char)

/-- rfc5322 `_concat_comment`, accumulator form of its text-coalescing loop. -/
def _concat_comment_go : List CommentContent → String → List CommentContent
  | [], acc => if acc.isEmpty then [] else [.text acc]
  | .text t :: r, acc => _concat_comment_go r (acc ++ t)
  | .qp c :: r, acc => _concat_comment_go r (acc.push c)
  | .comment sub :: r, acc =>
    (if acc.isEmpty then [] else [.text acc]) ++ .comment sub :: _concat_comment_go r ""

/-- rfc5322 `_concat_comment`. -/
def _concat_comment (l : List CommentContent) : List CommentContent := _concat_comment_go l ""

/- rfc5322 `ccontent`/`comment` (mutually recursive; the fuel counts comment
nesting depth, bounded by the input length since every level consumes `(`). -/
mutual

def ccontentF : Nat → Parser CommentContent
  | 0 => fun _ => none
  | f + 1 =>
    alt
      (alt (Nom.map (recognizeMany1 intlCtext) (fun ct => .text (String.mk (utf8Lossy ct))))
        (Nom.map quoted_pair (fun c => .qp c)))
      (Nom.map (commentF f) (fun l => .comment l))

def commentF : Nat → Parser (List CommentContent)
  | 0 => fun _ => none
  | f + 1 =>
    Nom.map
      (delimited (tag (strBytes "("))
        (pair
          (Nom.map (many0 (pair ofws (ccontentF f)))
            (fun l => l.flatMap (fun x => [CommentContent.text x.1, x.2])))
          ofws)
        (tag (strBytes ")")))
      (fun x => _concat_comment (x.1 ++ [.text x.2]))

end

/-- rfc5322 `comment::<Intl>`. -/
def comment : Parser (List CommentContent) := fun input => commentF (input.length + 1) input

/-- rfc5322 `cfws::<Intl>`. -/
def cfws : Parser (List Nat) :=
  alt (recognizeP (pair (many1 (pair ofws comment)) ofws)) (recognizeP fws)

/-- rfc5322 `QContent` (without the cfg-gated `EncodedWord` variant). -/
inductive QContent where
  | literal (s : String)
  | qp (c : Char)

/-- rfc5322 `qcontent::<Intl>`; the matched qtext slice goes through
`String::from_utf8_lossy`. -/
def qcontent : Parser QContent :=
  alt (Nom.map (recognizeMany1 intlQtext) (fun q => .literal (String.mk (utf8Lossy q))))
    (Nom.map quoted_pair (fun c => .qp c))

/-- rfc5322 `_inner_quoted_string::<Intl>`. -/
def _inner_quoted_string : Parser (List QContent) :=
  Nom.map
    (delimited (tag (strBytes "\""))
      (pair (many0 (pair (opt fws) qcontent)) (opt fws))
      (tag (strBytes "\"")))
    (fun x =>
      (x.1.flatMap (fun wc =>
        match wc.1 with
        | some ws => [QContent.literal ws, wc.2]
        | none => [wc.2])) ++
      (match x.2 with
       | some w => [QContent.literal w]
       | none => []))

/-- rfc5322 `concat_qs`. -/
def concat_qs (l : List QContent) : String :=
  l.foldl (fun out qc =>
    match qc with
    | .literal lit => out ++ lit
    | .qp c => out.push c) ""

/-- rfc5322 `quoted_string::<Intl>` (`QuotedString` newtype flattened to
`String`). -/
def quoted_string : Parser String :=
  Nom.map (delimited (opt cfws) _inner_quoted_string (opt cfws)) concat_qs

end Rfc5322

/-! ## rfc2231.rs — encoded MIME parameters -/

namespace Rfc2231

/-- rfc2231 `Name` (`section` renamed to `sectionNum`: `section` is a Lean
keyword). -/
structure Name where
  sectionNum : Option Nat
  name : String
deriving DecidableEq

/-- rfc2231 `ExtendedValue`. -/
inductive ExtendedValue where
  | initial (encoding : Option (List Nat)) (language : Option (List Nat)) (value : List Nat)
  | other (value : List Nat)
deriving DecidableEq

/-- rfc2231 `Value`. -/
inductive Value where
  | regular (v : String)
  | extended (e : ExtendedValue)
deriving DecidableEq

/-- rfc2231 `Parameter`. -/
structure Parameter where
  name : Name
  value : Value
deriving DecidableEq

/-- rfc2231 `token` (maps the matched slice through `str::from_utf8`; token
bytes are printable ASCII). -/
def token : Parser String :=
  Nom.map
    (takeWhile1 (fun c =>
      decide (33 ≤ c ∧ c ≤ 126) && !((strBytes "()<>@,;:\\\"/[]?=").contains c)))
    asciiStr

/-- rfc2231 `is_attribute_char`. -/
def is_attribute_char (c : Nat) : Bool :=
  decide (33 ≤ c ∧ c ≤ 126) && !((strBytes "*'%()<>@,;:\\\"/[]?=").contains c)

/-- rfc2231 `attribute_char`. -/
def attribute_char : Parser Nat := take1Filter is_attribute_char

/-- rfc2231 `attribute` (renamed: `attribute` is a Lean keyword). -/
def attrib : Parser (List Nat) := takeWhile1 is_attribute_char

/-- rfc2231 `initial_section`. -/
def initial_section : Parser Nat := Nom.map (tag (strBytes "*0")) (fun _ => 0)

/-- Decimal digit fold modelling `str::parse::<u32>` on 1–8 digits (cannot
overflow). -/
def digitsToNat (l : List Nat) : Nat := l.foldl (fun acc c => acc * 10 + (c - 48)) 0

/-- rfc2231 `other_sections`. -/
def other_sections : Parser Nat :=
  Nom.map
    (preceded (tag (strBytes "*"))
      (verify (takeWhileMN 1 8 (fun c => decide (48 ≤ c ∧ c ≤ 57)))
        (fun x => x.headD 0 != 48)))
    digitsToNat

/-- rfc2231 `section`. -/
def sectionP : Parser Nat := alt initial_section other_sections

/-- rfc2231 `_equals`. -/
def _equals : Parser Unit :=
  Nom.map (pair Rfc5322.ofws (pair (tag (strBytes "=")) Rfc5322.ofws)) (fun _ => ())

/-- rfc2231 `regular_parameter_name`. -/
def regular_parameter_name : Parser Name :=
  Nom.map (pair attrib (opt sectionP))
    (fun x => { name := asciiStr x.1, sectionNum := x.2 })

/-- rfc2231 `value`. -/
def value : Parser String := alt token Rfc5322.quoted_string

/-- rfc2231 `regular_parameter`. -/
def regular_parameter : Parser Parameter :=
  Nom.map (separatedPair regular_parameter_name _equals value)
    (fun x => { name := x.1, value := .regular x.2 })

/-- rfc2231 `extended_initial_name`. -/
def extended_initial_name : Parser Name :=
  Nom.map (terminated (pair attrib (opt initial_section)) (tag (strBytes "*")))
    (fun x => { name := asciiStr x.1, sectionNum := x.2 })

/-- rfc2231 `extended_other_names`. -/
def extended_other_names : Parser Name :=
  Nom.map (terminated (pair attrib other_sections) (tag (strBytes "*")))
    (fun x => { name := asciiStr x.1, sectionNum := some x.2 })

/-- rfc2231 `ext_octet`. -/
def ext_octet : Parser Nat := preceded (tag (strBytes "%")) Rfc3461.hexpair

/-- rfc2231 `extended_other_values`. -/
def extended_other_values : Parser (List Nat) := many0 (alt ext_octet attribute_char)

/-- rfc2231 `extended_initial_value`. -/
def extended_initial_value : Parser ExtendedValue :=
  Nom.map
    (pair (terminated (opt attrib) (tag (strBytes "'")))
      (pair (terminated (opt attrib) (tag (strBytes "'"))) extended_other_values))
    (fun x => .initial x.1 x.2.1 x.2.2)

/-- rfc2231 `extended_parameter`. -/
def extended_parameter : Parser Parameter :=
  alt
    (Nom.map (separatedPair extended_initial_name _equals extended_initial_value)
      (fun x => { name := x.1, value := .extended x.2 }))
    (Nom.map (separatedPair extended_other_names _equals extended_other_values)
      (fun x => { name := x.1, value := .extended (.other x.2) }))

/-- rfc2231 `parameter`. -/
def parameter : Parser Parameter := alt regular_parameter extended_parameter

/-- rfc2231 `_parameter_list`. -/
def _parameter_list : Parser (List Parameter) :=
  terminated (many0 (preceded (pair (tag (strBytes ";")) Rfc5322.ofws) parameter))
    (pair (opt (tag (strBytes ";"))) (opt Rfc5234.crlf))

/-- rfc2231 `_mime_type`. -/
def _mime_type : Parser (List Nat) :=
  recognizeP (pair token (pair (tag (strBytes "/")) token))

/-- rfc2231 `Segment`. -/
inductive Segment where
  | encoded (bytes : List Nat)
  | decoded (s : String)
deriving DecidableEq

/-- Comparison used by `decode_segments`' stable sort (`a.0.cmp(&b.0)`). -/
def sectionLE (a b : Nat × Segment) : Prop := a.1 ≤ b.1

instance : DecidableRel sectionLE := fun a b => Nat.decLe a.1 b.1

instance : IsTotal (Nat × Segment) sectionLE := ⟨fun a b => Nat.le_total a.1 b.1⟩

instance : IsTrans (Nat × Segment) sectionLE := ⟨fun _ _ _ h1 h2 => Nat.le_trans h1 h2⟩

/-- The walk of `decode_segments` over the sorted segments: encoded bytes are
buffered; a decoded segment (or the end) flushes the buffer through the
charset. -/
def decodeSegmentsGo (enc : Encoding) : List (Nat × Segment) → String → List Nat → String
  | [], out, buf => out ++ enc.decodeWithoutBomHandling buf
  | (_, .encoded bs) :: r, out, buf => decodeSegmentsGo enc r out (buf ++ bs)
  | (_, .decoded s) :: r, out, buf =>
    decodeSegmentsGo enc r (out ++ enc.decodeWithoutBomHandling buf ++ s) []

/-- rfc2231 `decode_segments` (the Rust `sort_by` on section numbers is a
stable sort, modelled by `insertionSort`). -/
def decode_segments (input : List (Nat × Segment)) (enc : Encoding) : String :=
  decodeSegmentsGo enc (List.insertionSort sectionLE input) "" []

/-- Association-list model of `HashMap` with `insert` replacing in place;
the observable behaviour of `decode_parameter_list` is per-name lookup, for
which the arbitrary iteration order of the Rust `HashMap` is irrelevant. -/
def alInsert (m : List (String × α)) (k : String) (v : α) : List (String × α) :=
  match m with
  | [] => [(k, v)]
  | (k2, v2) :: t => if k2 = k then (k, v) :: t else (k2, v2) :: alInsert t k v

def alLookup (m : List (String × α)) (k : String) : Option α :=
  match m with
  | [] => none
  | (k2, v2) :: t => if k2 = k then some v2 else alLookup t k

/-- `composite.entry(name).or_default().push(x)`. -/
def alPush (m : List (String × List α)) (k : String) (x : α) : List (String × List α) :=
  match m with
  | [] => [(k, [x])]
  | (k2, l) :: t => if k2 = k then (k2, l ++ [x]) :: t else (k2, l) :: alPush t k x

/-- The four accumulators of `decode_parameter_list`. -/
structure DPLState where
  simple : List (String × String)
  simple_encoded : List (String × String)
  composite : List (String × List (Nat × Segment))
  composite_encoding : List (String × Encoding)

def initState : DPLState := ⟨[], [], [], []⟩

/-- Codec resolution for a section-less extended-initial value:
`Encoding::for_label(decode_ascii(name).as_bytes()).unwrap_or(UTF_8)`. -/
def codecForLabel (encoding_name : Option (List Nat)) : Encoding :=
  match encoding_name with
  | some en => (Encoding.forLabel (strBytes (decode_ascii en))).getD .utf8
  | none => .utf8

/-- One iteration of the `for Parameter { name, value } in input` loop of
`decode_parameter_list`; `none` models the `unreachable!()` branch. -/
def processParam (st : DPLState) (p : Parameter) : Option DPLState :=
  let name_norm := lowerStr p.name.name
  match p.name.sectionNum, p.value with
  | none, .regular v => some { st with simple := alInsert st.simple name_norm v }
  | none, .extended (.initial enc _lang v) =>
    some { st with
      simple_encoded :=
        alInsert st.simple_encoded name_norm ((codecForLabel enc).decodeWithoutBomHandling v) }
  | none, .extended (.other _) => none
  | some s, .regular v =>
    some { st with composite := alPush st.composite name_norm (s, .decoded v) }
  | some s, .extended (.initial enc _lang v) =>
    some { st with
      composite := alPush st.composite name_norm (s, .encoded v),
      composite_encoding :=
        match enc with
        | some en =>
          match Encoding.forLabel (strBytes (decode_ascii en)) with
          | some codec => alInsert st.composite_encoding name_norm codec
          | none => st.composite_encoding
        | none => st.composite_encoding }
  | some s, .extended (.other v) =>
    some { st with composite := alPush st.composite name_norm (s, .encoded v) }

/-- rfc2231 `decode_parameter_list`; `none` models the `unreachable!()`
panic. -/
def decode_parameter_list (input : List Parameter) : Option (List (String × String)) :=
  (input.foldlM processParam initState).map (fun st =>
    let composite_out := st.composite.map (fun x =>
      (x.1, decode_segments x.2 ((alLookup st.composite_encoding x.1).getD .utf8)))
    (st.simple_encoded ++ composite_out).foldl (fun m kv => alInsert m kv.1 kv.2) st.simple)

/-- rfc2231 `content_type`, with the parameter map wrapped in `Option`
(`none` = the `unreachable!()` panic). -/
def content_type : Parser (String × Option (List (String × String))) :=
  Nom.map (pair (delimited Rfc5322.ofws _mime_type Rfc5322.ofws) _parameter_list)
    (fun x => (lowerStr (decode_ascii x.1), decode_parameter_list x.2))

/-- rfc2231 `_x_token`. -/
def _x_token : Parser String := preceded (tagNoCase (strBytes "x-")) token

/-- rfc2231 `ContentDisposition`. -/
inductive ContentDisposition where
  | inline
  | attachment
  | extended (s : String)
  | token (t : String)
deriving DecidableEq

/-- rfc2231 `_disposition`. -/
def _disposition : Parser ContentDisposition :=
  alt (Nom.map (tagNoCase (strBytes "inline")) (fun _ => ContentDisposition.inline))
    (alt (Nom.map (tagNoCase (strBytes "attachment")) (fun _ => ContentDisposition.attachment))
      (alt (Nom.map _x_token (fun x => ContentDisposition.extended x))
        (Nom.map token (fun t => ContentDisposition.token t))))

/-- rfc2231 `content_disposition`, parameter map wrapped as in
`content_type`. -/
def content_disposition : Parser (ContentDisposition × Option (List (String × String))) :=
  Nom.map (pair (delimited Rfc5322.ofws _disposition Rfc5322.ofws) _parameter_list)
    (fun x => (x.1, decode_parameter_list x.2))

/-- Claim-side projection: the section-less regular values for name `k`, in
input order. -/
def regsOf : List Parameter → String → List String
  | [], _ => []
  | p :: rest, k =>
    (match p.name.sectionNum, p.value with
     | none, .regular v => if lowerStr p.name.name = k then [v] else []
     | _, _ => []) ++ regsOf rest k

/-- Claim-side projection: decoded section-less extended-initial values. -/
def extsOf : List Parameter → String → List String
  | [], _ => []
  | p :: rest, k =>
    (match p.name.sectionNum, p.value with
     | none, .extended (.initial enc _lang v) =>
       if lowerStr p.name.name = k then [(codecForLabel enc).decodeWithoutBomHandling v]
       else []
     | _, _ => []) ++ extsOf rest k

/-- Claim-side projection: the `(section, segment)` pairs for name `k`. -/
def segsOf : List Parameter → String → List (Nat × Segment)
  | [], _ => []
  | p :: rest, k =>
    (match p.name.sectionNum, p.value with
     | some s, .regular v => if lowerStr p.name.name = k then [(s, Segment.decoded v)] else []
     | some s, .extended (.initial _enc _lang v) =>
       if lowerStr p.name.name = k then [(s, Segment.encoded v)] else []
     | some s, .extended (.other v) =>
       if lowerStr p.name.name = k then [(s, Segment.encoded v)] else []
     | none, _ => []) ++ segsOf rest k

/-- Claim-side projection: successfully recognized charsets of the sectioned
extended-initial segments for name `k`. -/
def codecsOf : List Parameter → String → List Encoding
  | [], _ => []
  | p :: rest, k =>
    (match p.name.sectionNum, p.value with
     | some _, .extended (.initial (some en) _lang _v) =>
       if lowerStr p.name.name = k then
         (Encoding.forLabel (strBytes (decode_ascii en))).toList
       else []
     | _, _ => []) ++ codecsOf rest k

def alKeys (m : List (String × α)) : List String := m.map Prod.fst

/-- Shape of a section-less parameter: the `extended_other_names` branch
always carries a section number, so a section-less parse is regular or
extended-initial. -/
def SectionlessShape (p : Parameter) : Prop :=
  p.name.sectionNum = none →
    (∃ v, p.value = Value.regular v) ∨
      ∃ enc lang v, p.value = Value.extended (ExtendedValue.initial enc lang v)

def sectionKeyLT (a b : Nat × Segment) : Prop := a.1 < b.1

instance : DecidableRel sectionKeyLT := fun a b => Nat.decLt a.1 b.1

instance : IsAntisymm (Nat × Segment) sectionKeyLT :=
  ⟨fun _ _ h1 h2 => absurd (Nat.lt_trans h1 h2) (Nat.lt_irrefl _)⟩

def c1input : List Parameter :=
  [⟨⟨some 0, "t"⟩, .extended (.initial (some (strBytes "us-ascii")) none [0xC3])⟩,
   ⟨⟨some 1, "t"⟩, .extended (.initial (some (strBytes "utf-8")) none [0xA9])⟩]

def c2inputA : List Parameter :=
  [⟨⟨some 1, "title"⟩, .regular "a"⟩, ⟨⟨some 1, "title"⟩, .regular "b"⟩]

def c2inputB : List Parameter :=
  [⟨⟨some 1, "title"⟩, .regular "b"⟩, ⟨⟨some 1, "title"⟩, .regular "a"⟩]

def c6input : List Parameter :=
  [⟨⟨none, "a"⟩, .extended (.initial (some (strBytes "utf-8")) none [0x41])⟩,
   ⟨⟨none, "a"⟩, .regular "x"⟩]

end Rfc2231

/-! ## headersection.rs — robust header splitting

The source uses nom's *streaming* combinators here; an `Incomplete` outcome
(input ended before the parser could decide) and a match failure both become
`none` in this model, which agrees with the source on every CRLF-terminated
input considered below.  `wspP`/`vchar`/`crlf`/`hsFws`/`hsOfws` are the
module-local copies of the rfc5234/rfc5322 helpers. -/

namespace HeaderSection
open Nom


def wspP : Parser Nat := take1Filter isWsp

def vchar : Parser Char :=
  Nom.map (take1Filter (fun c => decide (0x21 ≤ c ∧ c ≤ 0x7E))) (fun b => Char.ofNat b)

def crlf : Parser (List Nat) := tag (strBytes "\r\n")

def hsFws : Parser String :=
  Nom.map
    (pair (opt (terminated (recognizeMany0 wspP) crlf)) (recognizeMany1 wspP))
    (fun x => match x.1 with
      | some a => asciiStr (a ++ x.2)
      | none => asciiStr x.2)

def hsOfws : Parser String := Nom.map (opt hsFws) (fun i => i.getD "")

abbrev HeaderField : Type := Except (List Nat) (List Nat × List Nat)

def isFieldNameChar (c : Nat) : Bool := decide (33 ≤ c ∧ c ≤ 57 ∨ 59 ≤ c ∧ c ≤ 126)

def field_name : Parser (List Nat) := takeWhile1 isFieldNameChar

def takeUntilCRLF : List Nat → Option (List Nat × List Nat)
  | [] => none
  | b :: r =>
    if b = 13 ∧ r.head? = some 10 then some ([], b :: r)
    else (takeUntilCRLF r).map (fun x => (b :: x.1, x.2))

def until_crlf : Parser (List Nat) := fun input =>
  match takeUntilCRLF input with
  | some (i, rest) => if i.isEmpty then none else some (i, rest)
  | none => none

def unstructured : Parser (List Nat) :=
  recognizeP (pair
    (many0 (pair hsOfws (alt (recognizeP (many1 vchar)) until_crlf)))
    (many0 wspP))

def field : Parser HeaderField :=
  Nom.map (terminated (separatedPair field_name (tag (strBytes ":")) unstructured) crlf)
    (fun x => Except.ok x)

def invalid_field : Parser HeaderField :=
  Nom.map (terminated until_crlf crlf) (fun x => Except.error x)

def header_section : Parser (List HeaderField) :=
  terminated (many0 (alt field invalid_field)) (opt crlf)

def containsCRLF : List Nat → Bool
  | [] => false
  | b :: r => (decide (b = 13) && decide (r.head? = some 10)) || containsCRLF r

instance : DecidableEq HeaderField := fun a b =>
  match a, b with
  | .error x, .error y =>
    if h : x = y then .isTrue (by rw [h])
    else .isFalse (fun hh => h (Except.error.inj hh))
  | .ok x, .ok y =>
    if h : x = y then .isTrue (by rw [h])
    else .isFalse (fun hh => h (Except.ok.inj hh))
  | .error _, .ok _ => .isFalse (fun hh => Except.noConfusion hh)
  | .ok _, .error _ => .isFalse (fun hh => Except.noConfusion hh)

end HeaderSection

theorem toNat_ofNat_valid (n : Nat) (h : n.isValidChar) : (Char.ofNat n).toNat = n := by
  simp [Char.ofNat, Char.ofNatAux, h, Char.toNat, UInt32.toNat]

/-! Evaluation lemmas for `utf8Lossy`, one per branch. -/

theorem lossy_nil : utf8Lossy [] = [] := rfl

theorem lossy_ascii {b : Nat} (r : List Nat) (hb : b ≤ 0x7F) :
    utf8Lossy (b :: r) = Char.ofNat b :: utf8Lossy r := by
  conv_lhs => rw [utf8Lossy.eq_def]
  simp only [if_pos hb]

theorem lossy_badlead1 {b : Nat} (r : List Nat) (h1 : ¬ b ≤ 0x7F) (h2 : b < 0xC2) :
    utf8Lossy (b :: r) = '�' :: utf8Lossy r := by
  conv_lhs => rw [utf8Lossy.eq_def]
  simp only [if_neg h1, if_pos h2]

theorem lossy_two_eof {b : Nat} (h1 : ¬ b ≤ 0x7F) (h2 : ¬ b < 0xC2) (h3 : b ≤ 0xDF) :
    utf8Lossy [b] = ['�'] := by
  conv_lhs => rw [utf8Lossy.eq_def]
  simp only [if_neg h1, if_neg h2, if_pos h3]

theorem lossy_two_ok {b c : Nat} (r : List Nat) (h1 : ¬ b ≤ 0x7F) (h2 : ¬ b < 0xC2)
    (h3 : b ≤ 0xDF) (hc : contByte c) :
    utf8Lossy (b :: c :: r) = Char.ofNat ((b - 0xC0) * 64 + (c - 0x80)) :: utf8Lossy r := by
  conv_lhs => rw [utf8Lossy.eq_def]
  simp only [if_neg h1, if_neg h2, if_pos h3, if_pos hc]

theorem lossy_two_bad {b c : Nat} (r : List Nat) (h1 : ¬ b ≤ 0x7F) (h2 : ¬ b < 0xC2)
    (h3 : b ≤ 0xDF) (hc : ¬ contByte c) :
    utf8Lossy (b :: c :: r) = '�' :: utf8Lossy (c :: r) := by
  conv_lhs => rw [utf8Lossy.eq_def]
  simp only [if_neg h1, if_neg h2, if_pos h3, if_neg hc]

theorem lossy_three_eof1 {b : Nat} (h1 : ¬ b ≤ 0x7F) (h2 : ¬ b < 0xC2) (h3 : ¬ b ≤ 0xDF)
    (h4 : b ≤ 0xEF) : utf8Lossy [b] = ['�'] := by
  conv_lhs => rw [utf8Lossy.eq_def]
  simp only [if_neg h1, if_neg h2, if_neg h3, if_pos h4]

theorem lossy_three_bad1 {b c : Nat} (r : List Nat) (h1 : ¬ b ≤ 0x7F) (h2 : ¬ b < 0xC2)
    (h3 : ¬ b ≤ 0xDF) (h4 : b ≤ 0xEF) (hc : ¬ cont3 b c) :
    utf8Lossy (b :: c :: r) = '�' :: utf8Lossy (c :: r) := by
  conv_lhs => rw [utf8Lossy.eq_def]
  simp only [if_neg h1, if_neg h2, if_neg h3, if_pos h4, if_neg hc]

theorem lossy_three_eof2 {b c : Nat} (h1 : ¬ b ≤ 0x7F) (h2 : ¬ b < 0xC2)
    (h3 : ¬ b ≤ 0xDF) (h4 : b ≤ 0xEF) (hc : cont3 b c) :
    utf8Lossy [b, c] = ['�'] := by
  conv_lhs => rw [utf8Lossy.eq_def]
  simp only [if_neg h1, if_neg h2, if_neg h3, if_pos h4, if_pos hc]

theorem lossy_three_ok {b c d : Nat} (r : List Nat) (h1 : ¬ b ≤ 0x7F) (h2 : ¬ b < 0xC2)
    (h3 : ¬ b ≤ 0xDF) (h4 : b ≤ 0xEF) (hc : cont3 b c) (hd : contByte d) :
    utf8Lossy (b :: c :: d :: r) =
      Char.ofNat ((b - 0xE0) * 4096 + (c - 0x80) * 64 + (d - 0x80)) :: utf8Lossy r := by
  conv_lhs => rw [utf8Lossy.eq_def]
  simp only [if_neg h1, if_neg h2, if_neg h3, if_pos h4, if_pos hc, if_pos hd]

theorem lossy_three_bad2 {b c d : Nat} (r : List Nat) (h1 : ¬ b ≤ 0x7F) (h2 : ¬ b < 0xC2)
    (h3 : ¬ b ≤ 0xDF) (h4 : b ≤ 0xEF) (hc : cont3 b c) (hd : ¬ contByte d) :
    utf8Lossy (b :: c :: d :: r) = '�' :: utf8Lossy (d :: r) := by
  conv_lhs => rw [utf8Lossy.eq_def]
  simp only [if_neg h1, if_neg h2, if_neg h3, if_pos h4, if_pos hc, if_neg hd]

theorem lossy_four_eof1 {b : Nat} (h1 : ¬ b ≤ 0x7F) (h2 : ¬ b < 0xC2) (h3 : ¬ b ≤ 0xDF)
    (h4 : ¬ b ≤ 0xEF) (h5 : b ≤ 0xF4) : utf8Lossy [b] = ['�'] := by
  conv_lhs => rw [utf8Lossy.eq_def]
  simp only [if_neg h1, if_neg h2, if_neg h3, if_neg h4, if_pos h5]

theorem lossy_four_bad1 {b c : Nat} (r : List Nat) (h1 : ¬ b ≤ 0x7F) (h2 : ¬ b < 0xC2)
    (h3 : ¬ b ≤ 0xDF) (h4 : ¬ b ≤ 0xEF) (h5 : b ≤ 0xF4) (hc : ¬ cont4 b c) :
    utf8Lossy (b :: c :: r) = '�' :: utf8Lossy (c :: r) := by
  conv_lhs => rw [utf8Lossy.eq_def]
  simp only [if_neg h1, if_neg h2, if_neg h3, if_neg h4, if_pos h5, if_neg hc]

theorem lossy_four_eof2 {b c : Nat} (h1 : ¬ b ≤ 0x7F) (h2 : ¬ b < 0xC2) (h3 : ¬ b ≤ 0xDF)
    (h4 : ¬ b ≤ 0xEF) (h5 : b ≤ 0xF4) (hc : cont4 b c) : utf8Lossy [b, c] = ['�'] := by
  conv_lhs => rw [utf8Lossy.eq_def]
  simp only [if_neg h1, if_neg h2, if_neg h3, if_neg h4, if_pos h5, if_pos hc]

theorem lossy_four_bad2 {b c d : Nat} (r : List Nat) (h1 : ¬ b ≤ 0x7F) (h2 : ¬ b < 0xC2)
    (h3 : ¬ b ≤ 0xDF) (h4 : ¬ b ≤ 0xEF) (h5 : b ≤ 0xF4) (hc : cont4 b c)
    (hd : ¬ contByte d) :
    utf8Lossy (b :: c :: d :: r) = '�' :: utf8Lossy (d :: r) := by
  conv_lhs => rw [utf8Lossy.eq_def]
  simp only [if_neg h1, if_neg h2, if_neg h3, if_neg h4, if_pos h5, if_pos hc, if_neg hd]

theorem lossy_four_eof3 {b c d : Nat} (h1 : ¬ b ≤ 0x7F) (h2 : ¬ b < 0xC2) (h3 : ¬ b ≤ 0xDF)
    (h4 : ¬ b ≤ 0xEF) (h5 : b ≤ 0xF4) (hc : cont4 b c) (hd : contByte d) :
    utf8Lossy [b, c, d] = ['�'] := by
  conv_lhs => rw [utf8Lossy.eq_def]
  simp only [if_neg h1, if_neg h2, if_neg h3, if_neg h4, if_pos h5, if_pos hc, if_pos hd]

theorem lossy_four_ok {b c d e : Nat} (r : List Nat) (h1 : ¬ b ≤ 0x7F) (h2 : ¬ b < 0xC2)
    (h3 : ¬ b ≤ 0xDF) (h4 : ¬ b ≤ 0xEF) (h5 : b ≤ 0xF4) (hc : cont4 b c)
    (hd : contByte d) (he : contByte e) :
    utf8Lossy (b :: c :: d :: e :: r) =
      Char.ofNat ((b - 0xF0) * 262144 + (c - 0x80) * 4096 + (d - 0x80) * 64 + (e - 0x80)) ::
        utf8Lossy r := by
  conv_lhs => rw [utf8Lossy.eq_def]
  simp only [if_neg h1, if_neg h2, if_neg h3, if_neg h4, if_pos h5, if_pos hc, if_pos hd,
    if_pos he]

theorem lossy_four_bad3 {b c d e : Nat} (r : List Nat) (h1 : ¬ b ≤ 0x7F) (h2 : ¬ b < 0xC2)
    (h3 : ¬ b ≤ 0xDF) (h4 : ¬ b ≤ 0xEF) (h5 : b ≤ 0xF4) (hc : cont4 b c)
    (hd : contByte d) (he : ¬ contByte e) :
    utf8Lossy (b :: c :: d :: e :: r) = '�' :: utf8Lossy (e :: r) := by
  conv_lhs => rw [utf8Lossy.eq_def]
  simp only [if_neg h1, if_neg h2, if_neg h3, if_neg h4, if_pos h5, if_pos hc, if_pos hd,
    if_neg he]

theorem lossy_badlead2 {b : Nat} (r : List Nat) (h1 : ¬ b ≤ 0x7F) (h2 : ¬ b < 0xC2)
    (h3 : ¬ b ≤ 0xDF) (h4 : ¬ b ≤ 0xEF) (h5 : ¬ b ≤ 0xF4) :
    utf8Lossy (b :: r) = '�' :: utf8Lossy r := by
  conv_lhs => rw [utf8Lossy.eq_def]
  simp only [if_neg h1, if_neg h2, if_neg h3, if_neg h4, if_neg h5]

/-! Round-trip lemmas for `utf8EncodeChar` on the code points produced by each
success branch of `utf8Lossy`. -/

theorem encodeChar_one {b : Nat} (hb : b ≤ 0x7F) : utf8EncodeChar (Char.ofNat b) = [b] := by
  have hval : b.isValidChar := by unfold Nat.isValidChar; omega
  simp only [utf8EncodeChar, toNat_ofNat_valid b hval]
  simp only [if_pos (by omega : b < 0x80)]

theorem encodeChar_two {b c : Nat} (h2 : ¬ b < 0xC2) (h3 : b ≤ 0xDF) (hc : contByte c) :
    utf8EncodeChar (Char.ofNat ((b - 0xC0) * 64 + (c - 0x80))) = [b, c] := by
  obtain ⟨hc1, hc2⟩ := hc
  have hval : ((b - 0xC0) * 64 + (c - 0x80)).isValidChar := by
    unfold Nat.isValidChar; omega
  simp only [utf8EncodeChar, toNat_ofNat_valid _ hval]
  rw [if_neg (by omega), if_pos (by omega)]
  simp only [List.cons.injEq, and_true]
  constructor <;> omega

theorem encodeChar_three {b c d : Nat} (h3 : ¬ b ≤ 0xDF) (h4 : b ≤ 0xEF)
    (hc : cont3 b c) (hd : contByte d) :
    utf8EncodeChar (Char.ofNat ((b - 0xE0) * 4096 + (c - 0x80) * 64 + (d - 0x80))) =
      [b, c, d] := by
  obtain ⟨hd1, hd2⟩ := hd
  obtain ⟨hc1, hc2⟩ := hc
  have hval : ((b - 0xE0) * 4096 + (c - 0x80) * 64 + (d - 0x80)).isValidChar := by
    unfold Nat.isValidChar
    split at hc1 <;> split at hc2 <;> omega
  have hc1' : 0x80 ≤ c := by split at hc1 <;> omega
  have hc2' : c ≤ 0xBF := by split at hc2 <;> omega
  have hlo : 0x800 ≤ (b - 0xE0) * 4096 + (c - 0x80) * 64 + (d - 0x80) := by
    split at hc1 <;> omega
  simp only [utf8EncodeChar, toNat_ofNat_valid _ hval]
  rw [if_neg (by omega), if_neg (by omega), if_pos (by omega)]
  simp only [List.cons.injEq, and_true]
  refine ⟨by omega, by omega, by omega⟩

theorem encodeChar_four {b c d e : Nat} (h4 : ¬ b ≤ 0xEF) (h5 : b ≤ 0xF4)
    (hc : cont4 b c) (hd : contByte d) (he : contByte e) :
    utf8EncodeChar
        (Char.ofNat ((b - 0xF0) * 262144 + (c - 0x80) * 4096 + (d - 0x80) * 64 + (e - 0x80))) =
      [b, c, d, e] := by
  obtain ⟨hd1, hd2⟩ := hd
  obtain ⟨he1, he2⟩ := he
  obtain ⟨hc1, hc2⟩ := hc
  have hval :
      ((b - 0xF0) * 262144 + (c - 0x80) * 4096 + (d - 0x80) * 64 + (e - 0x80)).isValidChar := by
    unfold Nat.isValidChar
    split at hc1 <;> split at hc2 <;> omega
  have hc1' : 0x80 ≤ c := by split at hc1 <;> omega
  have hc2' : c ≤ 0xBF := by split at hc2 <;> omega
  have hlo : 0x10000 ≤ (b - 0xF0) * 262144 + (c - 0x80) * 4096 + (d - 0x80) * 64 + (e - 0x80) := by
    split at hc1 <;> omega
  simp only [utf8EncodeChar, toNat_ofNat_valid _ hval]
  rw [if_neg (by omega), if_neg (by omega), if_neg (by omega)]
  simp only [List.cons.injEq, and_true]
  refine ⟨by omega, by omega, by omega, by omega⟩

/-- Whenever the lossy decode introduced no replacement character, it was
information-preserving: re-encoding the decoded text yields the original
bytes (so the input was well-formed UTF-8).  Together with
`utf8Lossy` being a total function this captures "never fails; invalid
sequences become replacement characters". -/
theorem utf8Encode_utf8Lossy {l : List Nat} (h : '�' ∉ utf8Lossy l) :
    utf8Encode (utf8Lossy l) = l := by
  induction l using utf8Lossy.induct with
  | case1 => rfl
  | case2 b r hb ih =>
    rw [lossy_ascii r hb] at h ⊢
    rw [utf8Encode] at *
    simp only [List.map_cons, List.flatten_cons]
    rw [encodeChar_one hb, ih (fun hm => h (List.mem_cons_of_mem _ hm))]
    rfl
  | case3 b r h1 h2 ih =>
    rw [lossy_badlead1 r h1 h2] at h
    exact absurd (List.mem_cons_self _ _) h
  | case4 b h1 h2 h3 =>
    rw [lossy_two_eof h1 h2 h3] at h
    exact absurd (List.mem_cons_self _ _) h
  | case5 b h1 h2 h3 c r hc ih =>
    rw [lossy_two_ok r h1 h2 h3 hc] at h ⊢
    rw [utf8Encode] at *
    simp only [List.map_cons, List.flatten_cons]
    rw [encodeChar_two h2 h3 hc, ih (fun hm => h (List.mem_cons_of_mem _ hm))]
    rfl
  | case6 b h1 h2 h3 c r hc ih =>
    rw [lossy_two_bad r h1 h2 h3 hc] at h
    exact absurd (List.mem_cons_self _ _) h
  | case7 b h1 h2 h3 h4 =>
    rw [lossy_three_eof1 h1 h2 h3 h4] at h
    exact absurd (List.mem_cons_self _ _) h
  | case8 b h1 h2 h3 h4 c hc =>
    rw [lossy_three_eof2 h1 h2 h3 h4 hc] at h
    exact absurd (List.mem_cons_self _ _) h
  | case9 b h1 h2 h3 h4 c hc d r hd ih =>
    rw [lossy_three_ok r h1 h2 h3 h4 hc hd] at h ⊢
    rw [utf8Encode] at *
    simp only [List.map_cons, List.flatten_cons]
    rw [encodeChar_three h3 h4 hc hd, ih (fun hm => h (List.mem_cons_of_mem _ hm))]
    rfl
  | case10 b h1 h2 h3 h4 c hc d r hd ih =>
    rw [lossy_three_bad2 r h1 h2 h3 h4 hc hd] at h
    exact absurd (List.mem_cons_self _ _) h
  | case11 b h1 h2 h3 h4 c r hc ih =>
    rw [lossy_three_bad1 r h1 h2 h3 h4 hc] at h
    exact absurd (List.mem_cons_self _ _) h
  | case12 b h1 h2 h3 h4 h5 =>
    rw [lossy_four_eof1 h1 h2 h3 h4 h5] at h
    exact absurd (List.mem_cons_self _ _) h
  | case13 b h1 h2 h3 h4 h5 c hc =>
    rw [lossy_four_eof2 h1 h2 h3 h4 h5 hc] at h
    exact absurd (List.mem_cons_self _ _) h
  | case14 b h1 h2 h3 h4 h5 c hc d hd =>
    rw [lossy_four_eof3 h1 h2 h3 h4 h5 hc hd] at h
    exact absurd (List.mem_cons_self _ _) h
  | case15 b h1 h2 h3 h4 h5 c hc d hd e r he ih =>
    rw [lossy_four_ok r h1 h2 h3 h4 h5 hc hd he] at h ⊢
    rw [utf8Encode] at *
    simp only [List.map_cons, List.flatten_cons]
    rw [encodeChar_four h4 h5 hc hd he, ih (fun hm => h (List.mem_cons_of_mem _ hm))]
    rfl
  | case16 b h1 h2 h3 h4 h5 c hc d hd e r he ih =>
    rw [lossy_four_bad3 r h1 h2 h3 h4 h5 hc hd he] at h
    exact absurd (List.mem_cons_self _ _) h
  | case17 b h1 h2 h3 h4 h5 c hc d r hd ih =>
    rw [lossy_four_bad2 r h1 h2 h3 h4 h5 hc hd] at h
    exact absurd (List.mem_cons_self _ _) h
  | case18 b h1 h2 h3 h4 h5 c r hc ih =>
    rw [lossy_four_bad1 r h1 h2 h3 h4 h5 hc] at h
    exact absurd (List.mem_cons_self _ _) h
  | case19 b r h1 h2 h3 h4 h5 ih =>
    rw [lossy_badlead2 r h1 h2 h3 h4 h5] at h
    exact absurd (List.mem_cons_self _ _) h

namespace Nom

/-! Basic lemmas about the combinator model. -/

theorem many0Fuel_congr (p : Parser α) :
    ∀ f1 f2 input, input.length < f1 → input.length < f2 →
      many0Fuel p f1 input = many0Fuel p f2 input := by
  intro f1
  induction f1 with
  | zero => intro f2 input h1; omega
  | succ f ih =>
    intro f2 input h1 h2
    match f2, h2 with
    | f2 + 1, h2 =>
      show many0Fuel p (f + 1) input = many0Fuel p (f2 + 1) input
      rw [many0Fuel, many0Fuel]
      cases hp : p input with
      | none => simp only [hp]
      | some x =>
        obtain ⟨a, rest⟩ := x
        simp only [hp]
        by_cases hlt : rest.length < input.length
        · rw [if_pos hlt, if_pos hlt, ih f2 rest (by omega) (by omega)]
        · rw [if_neg hlt, if_neg hlt]

theorem many0_step_none (p : Parser α) (input : List Nat) (hp : p input = none) :
    many0 p input = some ([], input) := by
  rw [many0, many0Fuel]
  simp only [hp]

theorem many0_step_some (p : Parser α) (input rest : List Nat) (a : α)
    (hp : p input = some (a, rest)) (hlt : rest.length < input.length) :
    many0 p input =
      match many0 p rest with
      | some (as, r2) => some (a :: as, r2)
      | none => none := by
  rw [many0, many0Fuel]
  simp only [hp, if_pos hlt]
  rw [many0Fuel_congr p input.length (rest.length + 1) rest (by omega) (by omega)]
  rfl

/-- Every element returned by `many0` satisfies any property that all
successful results of the element parser satisfy. -/
theorem many0_forall (p : Parser α) (P : α → Prop)
    (hP : ∀ input a rest, p input = some (a, rest) → P a) :
    ∀ fuel input as r, many0Fuel p fuel input = some (as, r) → ∀ x ∈ as, P x := by
  intro fuel
  induction fuel with
  | zero => intro input as r h; simp [many0Fuel] at h
  | succ f ih =>
    intro input as r h
    rw [many0Fuel] at h
    cases hp : p input with
    | none =>
      simp only [hp] at h
      obtain ⟨rfl, rfl⟩ : as = [] ∧ input = r := by
        simpa using h
      simp
    | some x =>
      obtain ⟨a, rest⟩ := x
      simp only [hp] at h
      by_cases hlt : rest.length < input.length
      · rw [if_pos hlt] at h
        cases hm : many0Fuel p f rest with
        | none => rw [hm] at h; simp at h
        | some y =>
          obtain ⟨as2, r2⟩ := y
          rw [hm] at h
          obtain ⟨rfl, rfl⟩ : a :: as2 = as ∧ r2 = r := by
            simpa using h
          intro x hx
          rcases List.mem_cons.mp hx with rfl | hx2
          · exact hP input x rest hp
          · exact ih rest as2 _ hm x hx2
      · rw [if_neg hlt] at h; simp at h

/-- `recognize(many1(take1_filter pred))` is exactly `take_while1 pred`. -/
theorem many0Fuel_take1Filter (pred : Nat → Bool) :
    ∀ fuel input, input.length < fuel →
      many0Fuel (take1Filter pred) fuel input =
        some (input.takeWhile pred, input.dropWhile pred) := by
  intro fuel
  induction fuel with
  | zero => intro input h; omega
  | succ f ih =>
    intro input h
    rw [many0Fuel]
    cases input with
    | nil => simp [take1Filter, List.takeWhile, List.dropWhile]
    | cons b r =>
      by_cases hb : pred b
      · have ht : take1Filter pred (b :: r) = some (b, r) := by simp [take1Filter, hb]
        simp only [ht]
        rw [if_pos (by simp), ih r (by simpa using Nat.lt_of_succ_lt_succ h)]
        simp [List.takeWhile_cons, List.dropWhile_cons, hb]
      · have ht : take1Filter pred (b :: r) = none := by simp [take1Filter, hb]
        simp only [ht]
        simp [List.takeWhile_cons, List.dropWhile_cons, hb]

theorem take_length_takeWhile (pred : Nat → Bool) (input : List Nat) :
    input.take (input.takeWhile pred).length = input.takeWhile pred :=
  (List.prefix_iff_eq_take.mp (List.takeWhile_prefix pred)).symm

theorem length_sub_dropWhile (pred : Nat → Bool) (input : List Nat) :
    input.length - (input.dropWhile pred).length = (input.takeWhile pred).length := by
  have heq : (input.takeWhile pred).length + (input.dropWhile pred).length = input.length := by
    conv_rhs => rw [← List.takeWhile_append_dropWhile (p := pred) (l := input)]
    rw [List.length_append]
  omega

theorem recognizeMany0_take1Filter (pred : Nat → Bool) (input : List Nat) :
    recognizeMany0 (take1Filter pred) input =
      some (input.takeWhile pred, input.dropWhile pred) := by
  rw [recognizeMany0, recognizeP, many0,
    many0Fuel_take1Filter pred (input.length + 1) input (by omega)]
  simp only [length_sub_dropWhile, take_length_takeWhile]

theorem recognizeMany1_take1Filter (pred : Nat → Bool) (input : List Nat) :
    recognizeMany1 (take1Filter pred) input =
      match input.takeWhile pred with
      | [] => none
      | t => some (t, input.dropWhile pred) := by
  rw [recognizeMany1, recognizeP, many1, many0,
    many0Fuel_take1Filter pred (input.length + 1) input (by omega)]
  cases htw : input.takeWhile pred with
  | nil => simp
  | cons t ts =>
    simp only [length_sub_dropWhile, htw]
    rw [← htw, take_length_takeWhile, htw]

end Nom

namespace Rfc3461

theorem dsnGo_error_iff :
    ∀ (l : List Param) (out : List Param) (envid_val : Option String)
      (ret_val : Option DSNRet),
      (∃ e, dsnGo l out envid_val ret_val = .error e) ↔
        condS l envid_val.isSome ret_val.isSome := by
  have hc21 : ∀ n : Nat, (2 ≤ n + 1) ↔ (1 ≤ n) := fun n => by omega
  have hc11 : ∀ n : Nat, (1 ≤ n + 1) ↔ True := fun n => iff_true_intro (by omega)
  have hre : ("ret" : String) ≠ "envid" := by decide
  intro l
  induction l with
  | nil =>
    intro out envid ret
    rw [dsnGo]
    simp only [condS, List.countP_nil, List.not_mem_nil, false_and, exists_false, or_false]
    constructor
    · rintro ⟨e, he⟩; exact absurd he (by simp)
    · rintro (h | h) <;> (split at h <;> omega)
  | cons hd rest ih =>
    intro out envid ret
    obtain ⟨name, value⟩ := hd
    by_cases hr : lowerStr name = "ret"
    · cases value with
      | none =>
        rw [show dsnGo ((name, none) :: rest) out envid ret = .error "RET without value" by
          rw [dsnGo]; simp [hr]]
        constructor
        · intro _
          exact Or.inr (Or.inr (Or.inl ⟨(name, none), List.mem_cons_self _ _, hr, trivial⟩))
        · intro _; exact ⟨_, rfl⟩
      | some v =>
        cases hrs : ret with
        | some r0 =>
          rw [show dsnGo ((name, some v) :: rest) out envid (some r0) = .error "Duplicate RET" by
            rw [dsnGo]; simp [hr]]
          constructor
          · intro _
            left
            simp [List.countP_cons, retNamed, hr]
          · intro _; exact ⟨_, rfl⟩
        | none =>
          by_cases hfull : lowerStr v = "full"
          · rw [show dsnGo ((name, some v) :: rest) out envid none =
                dsnGo rest out envid (some .full) by
              rw [dsnGo]; simp [hr, hfull]]
            rw [ih out envid (some .full)]
            unfold condS
            simp [List.countP_cons, retNamed, envidNamed, hr, hre, hc21, hc11,
              badValue, validRetVal, hfull, exists_eq_or_imp]
          · by_cases hhdrs : lowerStr v = "hdrs"
            · rw [show dsnGo ((name, some v) :: rest) out envid none =
                  dsnGo rest out envid (some .hdrs) by
                rw [dsnGo]; simp [hr, hfull, hhdrs]]
              rw [ih out envid (some .hdrs)]
              unfold condS
              simp [List.countP_cons, retNamed, envidNamed, hr, hre, hc21, hc11,
                badValue, validRetVal, hhdrs, exists_eq_or_imp]
            · rw [show dsnGo ((name, some v) :: rest) out envid none = .error "Invalid RET" by
                rw [dsnGo]; simp [hr, hfull, hhdrs]]
              constructor
              · intro _
                refine Or.inr (Or.inr (Or.inl ⟨(name, some v), List.mem_cons_self _ _, hr, ?_⟩))
                intro hval
                rcases hval with h | h <;> [exact hfull h; exact hhdrs h]
              · intro _; exact ⟨_, rfl⟩
    · by_cases he : lowerStr name = "envid"
      · cases value with
        | none =>
          rw [show dsnGo ((name, none) :: rest) out envid ret = .error "ENVID without value" by
            rw [dsnGo]; simp [hr, he]]
          constructor
          · intro _
            exact Or.inr (Or.inr (Or.inr ⟨(name, none), List.mem_cons_self _ _, he, trivial⟩))
          · intro _; exact ⟨_, rfl⟩
        | some v =>
          cases hes : envid with
          | some e0 =>
            rw [show dsnGo ((name, some v) :: rest) out (some e0) ret =
                .error "Duplicate ENVID" by
              rw [dsnGo]; simp [hr, he]]
            constructor
            · intro _
              refine Or.inr (Or.inl ?_)
              simp [List.countP_cons, envidNamed, he]
            · intro _; exact ⟨_, rfl⟩
          | none =>
            by_cases hlen : 100 < (strBytes v).length
            · rw [show dsnGo ((name, some v) :: rest) out none ret =
                  .error "ENVID over 100 bytes" by
                rw [dsnGo]; simp [hr, he, hlen]]
              constructor
              · intro _
                refine Or.inr (Or.inr (Or.inr ⟨(name, some v), List.mem_cons_self _ _, he, ?_⟩))
                intro hval
                exact absurd hval.1 (by omega)
              · intro _; exact ⟨_, rfl⟩
            · cases hx : allConsuming _printable_xtext (strBytes v) with
              | none =>
                rw [show dsnGo ((name, some v) :: rest) out none ret = .error "Invalid ENVID" by
                  rw [dsnGo]; simp [hr, he, hlen, hx]]
                constructor
                · intro _
                  refine Or.inr (Or.inr (Or.inr
                    ⟨(name, some v), List.mem_cons_self _ _, he, ?_⟩))
                  intro hval
                  have h2 := hval.2
                  rw [hx] at h2
                  simp at h2
                · intro _; exact ⟨_, rfl⟩
              | some pr =>
                rw [show dsnGo ((name, some v) :: rest) out none ret =
                    dsnGo rest out (some (decode_ascii pr.1)) ret by
                  rw [dsnGo]; simp [hr, he, hlen, hx]]
                rw [ih out (some (decode_ascii pr.1)) ret]
                unfold condS
                have hval : validEnvidVal v := ⟨by omega, by rw [hx]; rfl⟩
                simp [List.countP_cons, retNamed, envidNamed, he,
                  fun h => hr h, hc21, hc11, badValue, hval, exists_eq_or_imp,
                  show lowerStr name ≠ "ret" from hr]
      · rw [show dsnGo ((name, value) :: rest) out envid ret =
            dsnGo rest (out ++ [(name, value)]) envid ret by
          rw [dsnGo.eq_def]; simp [hr, he]]
        rw [ih (out ++ [(name, value)]) envid ret]
        unfold condS
        simp [List.countP_cons, retNamed, envidNamed, hr, he, exists_eq_or_imp]

/-- C7: `dsn_mail_params` returns an error exactly when the input contains a
duplicate RET, an invalid RET keyword, a duplicate ENVID, an over-long or
non-xtext ENVID, or a RET/ENVID with no value; and on the documented example
it returns `{envid: None, ret: Some(Hdrs)}` with leftover `[("OTHER", None)]`. -/
theorem dsn_mail_params_errors :
    (∀ input, (∃ e, dsn_mail_params input = .error e) ↔ dsnErrorCondition input)
    ∧ dsn_mail_params [("RET", some "HDRS"), ("OTHER", none)] =
        .ok ({ envid := none, ret := some .hdrs }, [("OTHER", none)]) := by
  constructor
  · intro input
    rw [dsn_mail_params, dsnGo_error_iff input [] none none]
    simp only [condS, dsnErrorCondition, Option.isSome_none, Bool.false_eq_true, if_false]
  · rfl

/-- C7 witness: a RET parameter with no value is rejected. -/
theorem dsn_mail_params_errors_witness :
    ∃ e, dsn_mail_params [("RET", Option.none)] = .error e :=
  (dsn_mail_params_errors.1 [("RET", none)]).mpr (by decide)

end Rfc3461

theorem wsp_eq_take1Filter : Rfc5234.wsp = take1Filter isWsp := by
  funext input
  have hsp : strBytes " " = [32] := by decide
  have hht : strBytes "\t" = [9] := by decide
  cases input with
  | nil =>
    simp [Rfc5234.wsp, Rfc5234.sp, Rfc5234.htab, Nom.map, Nom.alt, Nom.tag,
      Nom.take1Filter, hsp, hht, List.isPrefixOf]
  | cons b r =>
    by_cases h32 : b = 32
    · subst h32
      simp [Rfc5234.wsp, Rfc5234.sp, Rfc5234.htab, Nom.map, Nom.alt, Nom.tag,
        Nom.take1Filter, hsp, hht, List.isPrefixOf, isWsp]
    · by_cases h9 : b = 9
      · subst h9
        simp [Rfc5234.wsp, Rfc5234.sp, Rfc5234.htab, Nom.map, Nom.alt, Nom.tag,
          Nom.take1Filter, hsp, hht, List.isPrefixOf, isWsp]
      · have hw : isWsp b = false := by
          simp only [isWsp, Bool.or_eq_false_iff, beq_eq_false_iff_ne]
          omega
        simp [Rfc5234.wsp, Rfc5234.sp, Rfc5234.htab, Nom.map, Nom.alt, Nom.tag,
          Nom.take1Filter, hsp, hht, List.isPrefixOf, hw, h32, h9,
          show ¬ (32 = b) from fun h => h32 h.symm, show ¬ (9 = b) from fun h => h9 h.symm]

theorem takeWhile_all_append (pred : Nat → Bool) (a rest : List Nat)
    (ha : ∀ c ∈ a, pred c)
    (hr : ∀ hd, rest.head? = some hd → pred hd = false) :
    (a ++ rest).takeWhile pred = a ∧ (a ++ rest).dropWhile pred = rest := by
  induction a with
  | nil =>
    simp only [List.nil_append]
    cases rest with
    | nil => simp
    | cons hd tl =>
      have := hr hd rfl
      simp [List.takeWhile_cons, List.dropWhile_cons, this]
  | cons x xs ih =>
    have hx : pred x = true := ha x (List.mem_cons_self _ _)
    have ih2 := ih (fun c hc => ha c (List.mem_cons_of_mem _ hc))
    simp [List.takeWhile_cons, List.dropWhile_cons, hx, ih2.1, ih2.2]

namespace HeaderSection

theorem takeUntilCRLF_append (line rest : List Nat) (h : containsCRLF line = false) :
    takeUntilCRLF (line ++ 13 :: 10 :: rest) = some (line, 13 :: 10 :: rest) := by
  induction line with
  | nil => simp [takeUntilCRLF]
  | cons b r ih =>
    rw [containsCRLF] at h
    simp only [Bool.or_eq_false_iff, Bool.and_eq_false_iff, decide_eq_false_iff_not] at h
    obtain ⟨h1, h2⟩ := h
    rw [List.cons_append, takeUntilCRLF]
    have hcond : ¬(b = 13 ∧ (r ++ 13 :: 10 :: rest).head? = some 10) := by
      rintro ⟨rfl, hhd⟩
      rcases h1 with h1 | h1
      · exact h1 rfl
      · cases r with
        | nil => simp at hhd
        | cons r0 rtl => simp at hhd; simp [hhd] at h1
    rw [if_neg hcond, ih h2]
    rfl

theorem tag_colon_none (l : List Nat) (h : l.head? ≠ some 58) :
    tag (strBytes ":") l = none := by
  have hb : strBytes ":" = [58] := by decide
  rw [Nom.tag, hb]
  cases l with
  | nil => simp [List.isPrefixOf]
  | cons x r =>
    have : ¬ (58 = x) := fun hx => h (by simp [hx.symm])
    simp [List.isPrefixOf, this]

theorem field_none (line rest : List Nat)
    (hfail : line.takeWhile isFieldNameChar = [] ∨
      (line.drop (line.takeWhile isFieldNameChar).length).head? ≠ some 58) :
    field (line ++ 13 :: 10 :: rest) = none := by
  have h13 : isFieldNameChar 13 = false := by decide
  have htw : (line ++ 13 :: 10 :: rest).takeWhile isFieldNameChar =
      line.takeWhile isFieldNameChar := by
    rw [List.takeWhile_append]
    split
    · next hlen =>
      have hall : line.takeWhile isFieldNameChar = line :=
        List.Sublist.eq_of_length (List.takeWhile_sublist _) hlen
      rw [hall, List.takeWhile_cons, h13]
      simp [hall]
    · rfl
  rw [field, Nom.map, Nom.terminated, Nom.map, Nom.pair, Nom.separatedPair, Nom.pair,
    Nom.terminated, Nom.map, Nom.pair]
  rw [field_name, Nom.takeWhile1]
  simp only [htw]
  rcases hfail with hn | hcol
  · simp [hn]
  · cases htwl : line.takeWhile isFieldNameChar with
    | nil => simp [htwl]
    | cons t ts =>
      simp only [htwl]
      have hlen : (t :: ts).length ≤ line.length := by
        rw [← htwl]; exact List.Sublist.length_le (List.takeWhile_sublist _)
      have hdrop : (line ++ 13 :: 10 :: rest).drop (t :: ts).length =
          line.drop (t :: ts).length ++ 13 :: 10 :: rest :=
        List.drop_append_of_le_length hlen
      rw [htwl] at hcol
      rw [hdrop]
      have htag : tag (strBytes ":") (line.drop (t :: ts).length ++ 13 :: 10 :: rest) = none := by
        apply tag_colon_none
        cases hld : line.drop (t :: ts).length with
        | nil => simp
        | cons x xs =>
          rw [hld] at hcol
          simpa using hcol
      rw [htag]
      rfl

theorem invalid_field_ok (line rest : List Nat) (hne : line ≠ [])
    (h : containsCRLF line = false) :
    invalid_field (line ++ 13 :: 10 :: rest) = some (.error line, rest) := by
  have hb : strBytes "\r\n" = [13, 10] := by decide
  rw [invalid_field, Nom.map, Nom.terminated, Nom.map, Nom.pair]
  simp only [until_crlf, takeUntilCRLF_append line rest h]
  rw [if_neg (by simpa using hne)]
  simp [crlf, Nom.tag, hb, List.isPrefixOf]

end HeaderSection

/-- C9: when the first line of a header section (CRLF-terminated, no interior
CRLF) contains no colon, or no valid field name before the colon, the section
splitter emits the raw-line failure marker (`Err` with the line's bytes) for
that field and parses the remaining lines as usual. -/
theorem header_section_invalid_first_line :
    ∀ line rest fs body, line ≠ [] → HeaderSection.containsCRLF line = false →
      (¬ 58 ∈ line ∨ line.takeWhile HeaderSection.isFieldNameChar = [] ∨
        (line.drop (line.takeWhile HeaderSection.isFieldNameChar).length).head? ≠ some 58) →
      HeaderSection.header_section rest = some (fs, body) →
      HeaderSection.header_section (line ++ 13 :: 10 :: rest) =
        some (.error line :: fs, body) := by
  intro line rest fs body hne hcr hcond hrest
  have hfail : line.takeWhile HeaderSection.isFieldNameChar = [] ∨
      (line.drop (line.takeWhile HeaderSection.isFieldNameChar).length).head? ≠ some 58 := by
    rcases hcond with hno | h | h
    · right
      intro hh
      apply hno
      have hmem : 58 ∈ line.drop (line.takeWhile HeaderSection.isFieldNameChar).length := by
        cases hld : line.drop (line.takeWhile HeaderSection.isFieldNameChar).length with
        | nil => rw [hld] at hh; simp at hh
        | cons x xs =>
          rw [hld] at hh
          simp only [List.head?_cons, Option.some.injEq] at hh
          rw [← hh]
          exact List.mem_cons_self _ _
      exact (List.drop_sublist _ _).mem hmem
    · exact Or.inl h
    · exact Or.inr h
  have hP : Nom.alt HeaderSection.field HeaderSection.invalid_field
      (line ++ 13 :: 10 :: rest) = some (.error line, rest) := by
    rw [Nom.alt, HeaderSection.field_none line rest hfail,
      HeaderSection.invalid_field_ok line rest hne hcr]
  have hlt : rest.length < (line ++ 13 :: 10 :: rest).length := by
    simp [List.length_append]
    omega
  rw [HeaderSection.header_section, Nom.terminated, Nom.map, Nom.pair] at hrest ⊢
  rw [Nom.many0_step_some _ _ _ _ hP hlt]
  cases hm : Nom.many0 (Nom.alt HeaderSection.field HeaderSection.invalid_field) rest with
  | none =>
    rw [hm] at hrest
    simp at hrest
  | some x =>
    obtain ⟨as0, r0⟩ := x
    rw [hm] at hrest
    cases ho : Nom.opt HeaderSection.crlf r0 with
    | none =>
      rw [Nom.opt] at ho
      split at ho <;> simp at ho
    | some y =>
      obtain ⟨o, r1⟩ := y
      dsimp only at hrest ⊢
      rw [ho] at hrest ⊢
      simp only [Option.map_some', Option.some.injEq, Prod.mk.injEq] at hrest ⊢
      exact ⟨by rw [hrest.1], hrest.2⟩



/-- C9 witness: a colon-less first line becomes a raw-line `Err` marker and
the following `A: b` field still parses, with the body left over. -/
theorem header_section_invalid_first_line_witness :
    HeaderSection.header_section (strBytes "bad line\r\nA: b\r\n\r\nrest") =
      some ([.error (strBytes "bad line"), .ok (strBytes "A", strBytes " b")],
        strBytes "rest") := by
  rw [show strBytes "bad line\r\nA: b\r\n\r\nrest" =
      strBytes "bad line" ++ 13 :: 10 :: strBytes "A: b\r\n\r\nrest" by decide]
  exact header_section_invalid_first_line (strBytes "bad line")
    (strBytes "A: b\r\n\r\nrest") [.ok (strBytes "A", strBytes " b")] (strBytes "rest")
    (by decide) (by decide) (by decide) (by decide)


/-! ## Folding-whitespace characterization (C8) -/

theorem fws_eval (input : List Nat) :
    Rfc5322.fws input =
      match input.dropWhile isWsp with
      | 13 :: 10 :: r2 =>
        (match r2.takeWhile isWsp with
         | [] => none
         | _ => some (asciiStr (input.takeWhile isWsp ++ r2.takeWhile isWsp),
             r2.dropWhile isWsp))
      | _ =>
        (match input.takeWhile isWsp with
         | [] => none
         | _ => some (asciiStr (input.takeWhile isWsp), input.dropWhile isWsp)) := by
  have hcrlf : strBytes "\r\n" = [13, 10] := by decide
  rw [Rfc5322.fws, wsp_eq_take1Filter]
  simp only [Nom.map, Nom.pair, Nom.opt, Nom.terminated, Rfc5234.crlf, hcrlf,
    recognizeMany0_take1Filter, recognizeMany1_take1Filter, Nom.tag]
  cases hdw : List.dropWhile isWsp input with
  | nil =>
    cases htw : List.takeWhile isWsp input <;> simp [List.isPrefixOf, Option.map, htw, hdw]
  | cons d1 r1 =>
    cases r1 with
    | nil =>
      by_cases h13 : d1 = 13
      · subst h13
        cases htw : List.takeWhile isWsp input <;>
          simp [List.isPrefixOf, Option.map, htw, hdw]
      · cases htw : List.takeWhile isWsp input <;>
          simp [List.isPrefixOf, h13, Ne.symm h13, Option.map, htw, hdw]
    | cons d2 r2 =>
      by_cases h13 : d1 = 13
      · by_cases h10 : d2 = 10
        · subst h13; subst h10
          simp only [hdw, List.isPrefixOf, List.length_cons, List.length_nil]
          cases htw2 : List.takeWhile isWsp r2 <;> simp [Option.map, htw2]
        · subst h13
          cases htw : List.takeWhile isWsp input <;>
            simp [List.isPrefixOf, h10, Ne.symm h10, Option.map, htw, hdw]
      · cases htw : List.takeWhile isWsp input <;>
          simp [List.isPrefixOf, h13, Ne.symm h13, Option.map, htw, hdw]

theorem wsp_byte_char {c : Nat} (hc : isWsp c = true) :
    Char.ofNat c = ' ' ∨ Char.ofNat c = '\t' := by
  rcases (by simpa [isWsp] using hc : c = 32 ∨ c = 9) with h | h
  · left; rw [h]
  · right; rw [h]

/-- C8: `fws` matches an optional space/tab run followed by CRLF, then a
mandatory space/tab run; on every match the returned string is exactly the
concatenation of the whitespace run before the CRLF (if any) and the run
after it, and contains only space/tab characters (no CR or LF); conversely
such shapes do match. -/
theorem fws_folding_whitespace :
    (∀ input s rest, Rfc5322.fws input = some (s, rest) →
      ∃ a b, (∀ c ∈ a, isWsp c = true) ∧ (∀ c ∈ b, isWsp c = true) ∧ b ≠ []
        ∧ s = asciiStr (a ++ b)
        ∧ (input = a ++ [13, 10] ++ b ++ rest ∨ (a = [] ∧ input = b ++ rest))
        ∧ (∀ ch ∈ s.data, ch = ' ' ∨ ch = '\t'))
    ∧ (∀ a b rest, (∀ c ∈ a, isWsp c = true) → (∀ c ∈ b, isWsp c = true) → b ≠ [] →
        (∀ hd, rest.head? = some hd → isWsp hd = false) →
        Rfc5322.fws (a ++ [13, 10] ++ b ++ rest) = some (asciiStr (a ++ b), rest)) := by
  have hsdata : ∀ (l : List Nat), (∀ c ∈ l, isWsp c = true) →
      ∀ ch ∈ (asciiStr l).data, ch = ' ' ∨ ch = '\t' := by
    intro l hl ch hch
    simp only [asciiStr, List.mem_map] at hch
    obtain ⟨c, hc, rfl⟩ := hch
    exact wsp_byte_char (hl c hc)
  constructor
  · intro input s rest h
    rw [fws_eval] at h
    split at h
    · next r2 heq =>
      split at h
      · exact absurd h (by simp)
      · next t heq2 =>
        obtain ⟨rfl, rfl⟩ : asciiStr (input.takeWhile isWsp ++ r2.takeWhile isWsp) = s
            ∧ r2.dropWhile isWsp = rest := by
          constructor <;> (injection h with h1; injection h1)
        refine ⟨input.takeWhile isWsp, r2.takeWhile isWsp,
          fun c hc => List.mem_takeWhile_imp hc,
          fun c hc => List.mem_takeWhile_imp hc,
          fun hnil => heq2 hnil, rfl, Or.inl ?_,
          hsdata _ (fun c hc => ?_)⟩
        · conv_lhs => rw [← List.takeWhile_append_dropWhile (p := isWsp) (l := input)]
          rw [heq]
          conv_lhs => rw [← List.takeWhile_append_dropWhile (p := isWsp) (l := r2)]
          simp [List.append_assoc]
        · rcases List.mem_append.mp hc with hm | hm <;>
            exact List.mem_takeWhile_imp hm
    · split at h
      · exact absurd h (by simp)
      · next t heq2 =>
        obtain ⟨rfl, rfl⟩ : asciiStr (input.takeWhile isWsp) = s
            ∧ input.dropWhile isWsp = rest := by
          constructor <;> (injection h with h1; injection h1)
        refine ⟨[], input.takeWhile isWsp, by simp,
          fun c hc => List.mem_takeWhile_imp hc,
          fun hnil => heq2 hnil, by simp, Or.inr ⟨rfl, ?_⟩,
          hsdata _ (fun c hc => List.mem_takeWhile_imp hc)⟩
        exact (List.takeWhile_append_dropWhile (p := isWsp) (l := input)).symm
  · intro a b rest ha hb hbne hrest
    rw [show a ++ [13, 10] ++ b ++ rest = a ++ (13 :: 10 :: (b ++ rest)) by
      simp [List.append_assoc]]
    have h1 := takeWhile_all_append isWsp a (13 :: 10 :: (b ++ rest)) ha
      (by intro hd hhd; simp only [List.head?_cons, Option.some.injEq] at hhd
          subst hhd; rfl)
    have h2 := takeWhile_all_append isWsp b rest hb hrest
    rw [fws_eval]
    obtain ⟨x, xs, rfl⟩ := List.exists_cons_of_ne_nil hbne
    simp only [h1.1, h1.2, h2.1, h2.2]

/-- C8 witness: `" \r\n\tX"` matches with result `" \t"` and leftover `"X"`. -/
theorem fws_folding_whitespace_witness :
    Rfc5322.fws ([32] ++ [13, 10] ++ [9] ++ [88]) = some (asciiStr ([32] ++ [9]), [88]) :=
  fws_folding_whitespace.2 [32] [9] [88] (by decide) (by decide) (by decide) (by decide)

/-! ## Claim theorems C3, C4, C5 -/

/-- C4: whenever `encoded_word` matches the `=?charset?enc?text?=` frame, an
unknown single-letter encoding or a decode failure is not a parse failure:
`decode_text` returns `none` for any encoding other than `q`/`Q`/`b`/`B`, and
whenever `decode_text` fails the parse still succeeds with the literal encoded
text bytes as the payload. -/
theorem encoded_word_literal_on_decode_failure :
    (∀ e t, ¬(e = [0x71] ∨ e = [0x51] ∨ e = [0x62] ∨ e = [0x42]) →
      Rfc2047.decode_text e t = none)
    ∧ (∀ input charset lang enc text rest,
        Rfc2047.encoded_word_frame input = some ((charset, lang, enc, text), rest) →
        Rfc2047.decode_text enc text = none →
        Rfc2047.encoded_word input = some (⟨decode_ascii charset, text⟩, rest)) := by
  constructor
  · intro e t h
    have h1 : ¬(e = [0x71] ∨ e = [0x51]) := fun hc => h (by tauto)
    have h2 : ¬(e = [0x62] ∨ e = [0x42]) := fun hc => h (by tauto)
    rw [Rfc2047.decode_text, if_neg h1, if_neg h2]
  · intro input charset lang enc text rest hframe hdec
    rw [Rfc2047.encoded_word, Nom.map]
    simp only [hframe, Option.map_some']
    rw [hdec]
    rfl

/-- C4 witness: `=?us-ascii?Z?abc?=` parses successfully and yields the
literal text `abc`. -/
theorem encoded_word_literal_on_decode_failure_witness :
    Rfc2047.encoded_word (strBytes "=?us-ascii?Z?abc?=") =
      some (⟨"us-ascii", strBytes "abc"⟩, []) :=
  (encoded_word_literal_on_decode_failure.2 (strBytes "=?us-ascii?Z?abc?=")
      (strBytes "us-ascii") none [0x5A] (strBytes "abc") [] (by decide) (by decide)).trans
    (by decide)

/-- C5: `EncodedWord::decode` is total: it is a Lean function defined on every
charset string and byte payload; when the charset label is unrecognized it
decodes through UTF-8; the lossy UTF-8 decode loses information only by
inserting replacement characters (so decoding never fails); and recognized
labels resolve through the alias table (`ISO-8859-1` ↦ windows-1252,
`UTF-8` ↦ UTF-8). -/
theorem encodedWord_decode_total (charset : String) (bytes : List Nat) :
    (Encoding.forLabel (strBytes charset) = none →
      (Rfc2047.EncodedWord.mk charset bytes).decode = String.mk (utf8Lossy bytes))
    ∧ (utf8Encode (utf8Lossy bytes) ≠ bytes → '�' ∈ utf8Lossy bytes)
    ∧ Encoding.forLabel (strBytes "ISO-8859-1") = some Encoding.windows1252
    ∧ Encoding.forLabel (strBytes "UTF-8") = some Encoding.utf8 := by
  refine ⟨?_, ?_, by decide, by decide⟩
  · intro h
    show ((Encoding.forLabel (strBytes charset)).getD .utf8).decodeWithoutBomHandling bytes = _
    rw [h]
    rfl
  · intro hne
    by_contra hmem
    exact hne (utf8Encode_utf8Lossy hmem)

/-- C5 witness: an unrecognized charset label decodes through UTF-8, and the
invalid byte `0xFF` decodes to a replacement character. -/
theorem encodedWord_decode_total_witness :
    (Rfc2047.EncodedWord.mk "x-unknown" [0xFF]).decode = String.mk (utf8Lossy [0xFF])
    ∧ '�' ∈ utf8Lossy [0xFF] :=
  ⟨(encodedWord_decode_total "x-unknown" [0xFF]).1 (by decide),
   (encodedWord_decode_total "x-unknown" [0xFF]).2.1 (by decide)⟩

/-- C3: evaluating the display-name joiner at the failing input
(quoted-string `"a"` followed by atom `b`, as produced for the display name
`"a" b`) yields `"b b"`: the quoted-string text is dropped and the atom text
duplicated, contradicting the claim that non-atom tokens are concatenated
verbatim (which would give `"a b"`). -/
theorem concat_atom_and_qs_drops_quoted_string :
    Rfc5322._concat_atom_and_qs [.literal "a", .atom "b"] = "b b"
    ∧ ("b b" : String) ≠ "a b" :=
  ⟨by decide, by decide⟩

namespace Rfc2231

theorem alLookup_alInsert (m : List (String × α)) (k k' : String) (v : α) :
    alLookup (alInsert m k v) k' = if k = k' then some v else alLookup m k' := by
  induction m with
  | nil => simp [alInsert, alLookup]
  | cons kv t ih =>
    obtain ⟨k2, v2⟩ := kv
    by_cases h2 : k2 = k
    · subst h2
      simp only [alInsert, if_pos rfl, alLookup]
      by_cases h3 : k2 = k' <;> simp [h3]
    · simp only [alInsert, if_neg h2, alLookup]
      by_cases h3 : k2 = k'
      · subst h3
        have : ¬ (k = k2) := fun hh => h2 hh.symm
        simp [this]
      · simp [h3, ih]

theorem alLookup_alPush (m : List (String × List α)) (k k' : String) (x : α) :
    alLookup (alPush m k x) k' =
      if k = k' then some ((alLookup m k).getD [] ++ [x]) else alLookup m k' := by
  induction m with
  | nil =>
    simp only [alPush, alLookup]
    by_cases h : k = k' <;> simp [h]
  | cons kv t ih =>
    obtain ⟨k2, l2⟩ := kv
    by_cases h2 : k2 = k
    · subst h2
      simp only [alPush, if_pos rfl, alLookup]
      by_cases h3 : k2 = k' <;> simp [h3]
    · simp only [alPush, if_neg h2, alLookup]
      by_cases h3 : k2 = k'
      · subst h3
        have : ¬ (k = k2) := fun hh => h2 hh.symm
        simp [h2, this]
      · simp [h3, ih]

theorem or_getLast_cons (v : α) (xs : List α) (old : Option α) :
    ((v :: xs).getLast?).or old = (xs.getLast?).or (some v) := by
  cases xs with
  | nil => simp
  | cons y ys =>
    rw [List.getLast?_cons_cons]
    cases h2 : (y :: ys).getLast? with
    | none => simp at h2
    | some z => simp

theorem processList_state (k : String) :
    ∀ (l : List Parameter) (st st' : DPLState),
      l.foldlM processParam st = some st' →
      alLookup st'.simple k = ((regsOf l k).getLast?).or (alLookup st.simple k)
      ∧ alLookup st'.simple_encoded k =
          ((extsOf l k).getLast?).or (alLookup st.simple_encoded k)
      ∧ alLookup st'.composite k =
          (match segsOf l k with
           | [] => alLookup st.composite k
           | segs => some ((alLookup st.composite k).getD [] ++ segs))
      ∧ alLookup st'.composite_encoding k =
          ((codecsOf l k).getLast?).or (alLookup st.composite_encoding k) := by
  intro l
  induction l with
  | nil =>
    intro st st' h
    obtain rfl : st = st' := by simpa using h
    simp [regsOf, extsOf, segsOf, codecsOf, Option.or]
  | cons p rest ih =>
    intro st st' h
    rw [List.foldlM_cons] at h
    cases hp : processParam st p with
    | none => rw [hp] at h; simp at h
    | some st1 =>
      rw [hp] at h
      replace h : List.foldlM processParam st1 rest = some st' := h
      obtain ⟨ih1, ih2, ih3, ih4⟩ := ih st1 st' h
      obtain ⟨⟨psec, pnm⟩, pval⟩ := p
      rcases psec with _ | s
      · rcases pval with v | ev
        · -- sectionless regular
          unfold processParam at hp
          simp only [Option.some.injEq] at hp
          subst hp
          dsimp only at ih1 ih2 ih3 ih4
          rw [alLookup_alInsert] at ih1
          simp only [regsOf, extsOf, segsOf, codecsOf]
          by_cases hk : lowerStr pnm = k
          · subst hk
            rw [if_pos rfl] at ih1 ⊢
            refine ⟨?_, ih2, ih3, ih4⟩
            rw [ih1]
            simp only [List.singleton_append]
            rw [or_getLast_cons]
          · rw [if_neg hk] at ih1 ⊢
            exact ⟨ih1, ih2, ih3, ih4⟩
        · rcases ev with ⟨enc, lang, v⟩ | v
          · -- sectionless extended initial
            unfold processParam at hp
            simp only [Option.some.injEq] at hp
            subst hp
            dsimp only at ih1 ih2 ih3 ih4
            rw [alLookup_alInsert] at ih2
            simp only [regsOf, extsOf, segsOf, codecsOf]
            by_cases hk : lowerStr pnm = k
            · subst hk
              rw [if_pos rfl] at ih2 ⊢
              refine ⟨ih1, ?_, ih3, ih4⟩
              rw [ih2]
              simp only [List.singleton_append]
              rw [or_getLast_cons]
            · rw [if_neg hk] at ih2 ⊢
              exact ⟨ih1, ih2, ih3, ih4⟩
          · -- sectionless extended other: unreachable
            unfold processParam at hp
            simp at hp
      · rcases pval with v | ev
        · -- sectioned regular
          unfold processParam at hp
          simp only [Option.some.injEq] at hp
          subst hp
          dsimp only at ih1 ih2 ih3 ih4
          rw [alLookup_alPush] at ih3
          simp only [regsOf, extsOf, segsOf, codecsOf]
          by_cases hk : lowerStr pnm = k
          · subst hk
            rw [if_pos rfl] at ih3 ⊢
            refine ⟨ih1, ih2, ?_, ih4⟩
            rw [ih3]
            simp only [List.singleton_append]
            cases hsr : segsOf rest (lowerStr pnm) with
            | nil => simp
            | cons s2 ss => simp [List.append_assoc]
          · rw [if_neg hk] at ih3 ⊢
            exact ⟨ih1, ih2, ih3, ih4⟩
        · rcases ev with ⟨enc, lang, v⟩ | v
          · -- sectioned extended initial
            unfold processParam at hp
            simp only [Option.some.injEq] at hp
            subst hp
            dsimp only at ih1 ih2 ih3 ih4
            rw [alLookup_alPush] at ih3
            simp only [regsOf, extsOf, segsOf, codecsOf]
            by_cases hk : lowerStr pnm = k
            · subst hk
              rw [if_pos rfl] at ih3 ⊢
              refine ⟨ih1, ih2, ?_, ?_⟩
              · rw [ih3]
                simp only [List.singleton_append]
                cases hsr : segsOf rest (lowerStr pnm) with
                | nil => simp
                | cons s2 ss => simp [List.append_assoc]
              · rcases enc with _ | en
                · dsimp only at ih4
                  simpa using ih4
                · dsimp only at ih4
                  cases hfl : Encoding.forLabel (strBytes (decode_ascii en)) with
                  | none =>
                    rw [hfl] at ih4
                    simpa [hfl] using ih4
                  | some codec =>
                    rw [hfl] at ih4
                    rw [alLookup_alInsert, if_pos rfl] at ih4
                    rw [ih4]
                    simp only [hfl, Option.toList, if_true, List.singleton_append]
                    rw [or_getLast_cons]
            · rw [if_neg hk] at ih3 ⊢
              refine ⟨ih1, ih2, ih3, ?_⟩
              rcases enc with _ | en
              · dsimp only at ih4
                simpa using ih4
              · dsimp only at ih4
                cases hfl : Encoding.forLabel (strBytes (decode_ascii en)) with
                | none =>
                  rw [hfl] at ih4
                  simpa [hfl] using ih4
                | some codec =>
                  rw [hfl] at ih4
                  rw [alLookup_alInsert, if_neg hk] at ih4
                  simpa [hfl, hk] using ih4
          · -- sectioned extended other
            unfold processParam at hp
            simp only [Option.some.injEq] at hp
            subst hp
            dsimp only at ih1 ih2 ih3 ih4
            rw [alLookup_alPush] at ih3
            simp only [regsOf, extsOf, segsOf, codecsOf]
            by_cases hk : lowerStr pnm = k
            · subst hk
              rw [if_pos rfl] at ih3 ⊢
              refine ⟨ih1, ih2, ?_, ih4⟩
              rw [ih3]
              simp only [List.singleton_append]
              cases hsr : segsOf rest (lowerStr pnm) with
              | nil => simp
              | cons s2 ss => simp [List.append_assoc]
            · rw [if_neg hk] at ih3 ⊢
              exact ⟨ih1, ih2, ih3, ih4⟩

theorem alKeys_alInsert_mem (m : List (String × α)) (k key : String) (v : α) :
    key ∈ alKeys (alInsert m k v) ↔ key = k ∨ key ∈ alKeys m := by
  induction m with
  | nil => simp [alInsert, alKeys, eq_comm]
  | cons kv t ih =>
    obtain ⟨k2, v2⟩ := kv
    by_cases h2 : k2 = k
    · subst h2
      simp [alInsert, alKeys, eq_comm]
    · simp only [alInsert, if_neg h2, alKeys, List.map_cons, List.mem_cons]
      rw [show (alKeys (alInsert t k v) = (alInsert t k v).map Prod.fst) from rfl] at ih
      rw [show (alKeys t = t.map Prod.fst) from rfl] at ih
      tauto

theorem alKeys_alInsert_nodup (m : List (String × α)) (k : String) (v : α)
    (h : (alKeys m).Nodup) : (alKeys (alInsert m k v)).Nodup := by
  induction m with
  | nil => simp [alInsert, alKeys]
  | cons kv t ih =>
    obtain ⟨k2, v2⟩ := kv
    simp only [alKeys, List.map_cons, List.nodup_cons] at h
    by_cases h2 : k2 = k
    · subst h2
      simpa [alInsert, alKeys, List.nodup_cons] using h
    · simp only [alInsert, if_neg h2, alKeys, List.map_cons, List.nodup_cons]
      refine ⟨?_, ih h.2⟩
      intro hmem
      rcases (alKeys_alInsert_mem t k k2 v).mp hmem with rfl | hmem2
      · exact h2 rfl
      · exact h.1 hmem2

theorem alKeys_alPush_mem (m : List (String × List α)) (k key : String) (x : α) :
    key ∈ alKeys (alPush m k x) ↔ key = k ∨ key ∈ alKeys m := by
  induction m with
  | nil => simp [alPush, alKeys, eq_comm]
  | cons kv t ih =>
    obtain ⟨k2, l2⟩ := kv
    by_cases h2 : k2 = k
    · subst h2
      simp [alPush, alKeys, eq_comm]
    · simp only [alPush, if_neg h2, alKeys, List.map_cons, List.mem_cons]
      rw [show (alKeys (alPush t k x) = (alPush t k x).map Prod.fst) from rfl] at ih
      rw [show (alKeys t = t.map Prod.fst) from rfl] at ih
      tauto

theorem alKeys_alPush_nodup (m : List (String × List α)) (k : String) (x : α)
    (h : (alKeys m).Nodup) : (alKeys (alPush m k x)).Nodup := by
  induction m with
  | nil => simp [alPush, alKeys]
  | cons kv t ih =>
    obtain ⟨k2, l2⟩ := kv
    simp only [alKeys, List.map_cons, List.nodup_cons] at h
    by_cases h2 : k2 = k
    · subst h2
      simpa [alPush, alKeys, List.nodup_cons] using h
    · simp only [alPush, if_neg h2, alKeys, List.map_cons, List.nodup_cons]
      refine ⟨?_, ih h.2⟩
      intro hmem
      rcases (alKeys_alPush_mem t k k2 x).mp hmem with rfl | hmem2
      · exact h2 rfl
      · exact h.1 hmem2

theorem processList_nodup :
    ∀ (l : List Parameter) (st st' : DPLState),
      l.foldlM processParam st = some st' →
      (alKeys st.simple_encoded).Nodup → (alKeys st.composite).Nodup →
      (alKeys st'.simple_encoded).Nodup ∧ (alKeys st'.composite).Nodup := by
  intro l
  induction l with
  | nil =>
    intro st st' h h1 h2
    obtain rfl : st = st' := by simpa using h
    exact ⟨h1, h2⟩
  | cons p rest ih =>
    intro st st' h h1 h2
    rw [List.foldlM_cons] at h
    cases hp : processParam st p with
    | none => rw [hp] at h; simp at h
    | some st1 =>
      rw [hp] at h
      replace h : List.foldlM processParam st1 rest = some st' := h
      have hstep : (alKeys st1.simple_encoded).Nodup ∧ (alKeys st1.composite).Nodup := by
        unfold processParam at hp
        split at hp
        · injection hp with hp; subst hp; exact ⟨h1, h2⟩
        · injection hp with hp; subst hp; exact ⟨alKeys_alInsert_nodup _ _ _ h1, h2⟩
        · exact Option.noConfusion hp
        · injection hp with hp; subst hp; exact ⟨h1, alKeys_alPush_nodup _ _ _ h2⟩
        · injection hp with hp; subst hp; exact ⟨h1, alKeys_alPush_nodup _ _ _ h2⟩
        · injection hp with hp; subst hp; exact ⟨h1, alKeys_alPush_nodup _ _ _ h2⟩
      exact ih st1 st' h hstep.1 hstep.2

theorem alLookup_append (l1 l2 : List (String × α)) (k : String) :
    alLookup (l1 ++ l2) k = (alLookup l1 k).or (alLookup l2 k) := by
  induction l1 with
  | nil => simp [alLookup]
  | cons kv t ih =>
    obtain ⟨k2, v2⟩ := kv
    by_cases h2 : k2 = k
    · simp [alLookup, h2]
    · simp [alLookup, h2, ih]

theorem alLookup_eq_none_of_not_mem (m : List (String × α)) (k : String)
    (h : k ∉ alKeys m) : alLookup m k = none := by
  induction m with
  | nil => rfl
  | cons kv t ih =>
    obtain ⟨k2, v2⟩ := kv
    simp only [alKeys, List.map_cons, List.mem_cons, not_or] at h
    have h2 : k2 ≠ k := fun hh => h.1 hh.symm
    simp only [alLookup, if_neg h2]
    exact ih (by simpa [alKeys] using h.2)

theorem alLookup_reverse_of_nodup (m : List (String × α)) (k : String)
    (h : (alKeys m).Nodup) : alLookup m.reverse k = alLookup m k := by
  induction m with
  | nil => rfl
  | cons kv t ih =>
    obtain ⟨k2, v2⟩ := kv
    simp only [alKeys, List.map_cons, List.nodup_cons] at h
    rw [List.reverse_cons, alLookup_append, ih (by simpa [alKeys] using h.2)]
    by_cases h2 : k2 = k
    · subst h2
      have : alLookup t k2 = none :=
        alLookup_eq_none_of_not_mem t k2 (by simpa [alKeys] using h.1)
      simp [alLookup, this]
    · simp [alLookup, h2]

theorem alLookup_map_pair (m : List (String × α)) (g : String × α → β) (k : String) :
    alLookup (m.map (fun x => (x.1, g x))) k = (alLookup m k).map (fun v => g (k, v)) := by
  induction m with
  | nil => rfl
  | cons kv t ih =>
    obtain ⟨k2, v2⟩ := kv
    by_cases h2 : k2 = k
    · subst h2
      simp [alLookup]
    · simp [alLookup, h2, ih]

theorem alKeys_map_pair (m : List (String × α)) (g : String × α → β) :
    alKeys (m.map (fun x => (x.1, g x))) = alKeys m := by
  simp [alKeys, List.map_map]

theorem alLookup_foldl_insert (l : List (String × α)) :
    ∀ (m : List (String × α)) (k : String),
      alLookup (l.foldl (fun m kv => alInsert m kv.1 kv.2) m) k =
        (alLookup l.reverse k).or (alLookup m k) := by
  induction l with
  | nil => intro m k; simp [alLookup]
  | cons kv t ih =>
    intro m k
    obtain ⟨k2, v2⟩ := kv
    rw [List.foldl_cons, ih, List.reverse_cons, alLookup_append, Option.or_assoc,
        alLookup_alInsert]
    by_cases h2 : k2 = k
    · simp [alLookup, h2]
    · simp [alLookup, h2]

theorem segsOf_eq_nil_of_unsectioned (l : List Parameter) (k : String)
    (h : ∀ p ∈ l, lowerStr p.name.name = k → p.name.sectionNum = none) :
    segsOf l k = [] := by
  induction l with
  | nil => rfl
  | cons p rest ih =>
    have hrest : segsOf rest k = [] := ih (fun q hq => h q (List.mem_cons_of_mem _ hq))
    obtain ⟨⟨psec, pnm⟩, pval⟩ := p
    rcases psec with _ | s
    · rcases pval with v | ev <;> [skip; rcases ev with ⟨enc, lg, v⟩ | v] <;>
        simp [segsOf, hrest]
    · by_cases hk : lowerStr pnm = k
      · have := h ⟨⟨some s, pnm⟩, pval⟩ (List.mem_cons_self _ _) hk
        simp at this
      · rcases pval with v | ev <;> [skip; rcases ev with ⟨enc, lg, v⟩ | v] <;>
          simp [segsOf, hk, hrest]

theorem dpl_lookup (input : List Parameter) (out : List (String × String)) (k : String)
    (h : decode_parameter_list input = some out) :
    alLookup out k =
      (match segsOf input k with
       | [] => none
       | segs => some (decode_segments segs (((codecsOf input k).getLast?).getD .utf8))).or
      (((extsOf input k).getLast?).or ((regsOf input k).getLast?)) := by
  unfold decode_parameter_list at h
  cases hfold : input.foldlM processParam initState with
  | none => rw [hfold] at h; simp at h
  | some st' =>
    rw [hfold] at h
    rw [Option.map_some'] at h
    injection h with h
    subst h
    obtain ⟨hs, hse, hco, hce⟩ := processList_state k input initState st' hfold
    have hnodup := processList_nodup input initState st' hfold
      (by simp [initState, alKeys]) (by simp [initState, alKeys])
    simp only [initState] at hs hse hco hce
    simp only [show alLookup ([] : List (String × String)) k = none from rfl,
      show alLookup ([] : List (String × List (Nat × Segment))) k = none from rfl,
      show alLookup ([] : List (String × Encoding)) k = none from rfl,
      Option.or_none, Option.getD_none, List.nil_append] at hs hse hco hce
    have hconodup : (alKeys (st'.composite.map (fun x =>
        (x.1, decode_segments x.2 ((alLookup st'.composite_encoding x.1).getD .utf8))))).Nodup := by
      rw [alKeys_map_pair]
      exact hnodup.2
    show alLookup ((st'.simple_encoded ++ st'.composite.map (fun x =>
        (x.1, decode_segments x.2 ((alLookup st'.composite_encoding x.1).getD .utf8)))).foldl
        (fun m kv => alInsert m kv.1 kv.2) st'.simple) k = _
    rw [alLookup_foldl_insert, List.reverse_append, alLookup_append,
        alLookup_reverse_of_nodup _ _ hconodup, alLookup_reverse_of_nodup _ _ hnodup.1,
        alLookup_map_pair, hs, hse, hco, Option.or_assoc]
    cases hsegs : segsOf input k with
    | nil => rfl
    | cons sg sgs => simp [hce]

theorem map_eq_some (p : Parser α) (f : α → β) (input : List Nat) (b : β) (r : List Nat) :
    Nom.map p f input = some (b, r) ↔ ∃ a, p input = some (a, r) ∧ b = f a := by
  unfold Nom.map
  cases hp : p input with
  | none => simp
  | some x =>
    obtain ⟨a, r2⟩ := x
    simp only [Option.map_some', Option.some.injEq, Prod.mk.injEq]
    constructor
    · rintro ⟨h1, h2⟩
      exact ⟨a, by simp [h2], h1.symm⟩
    · rintro ⟨a2, ⟨ha, hr⟩, hb⟩
      subst ha; subst hr
      exact ⟨hb.symm, rfl⟩

theorem pair_eq_some (p : Parser α) (q : Parser β) (input : List Nat) (ab : α × β)
    (r : List Nat) :
    pair p q input = some (ab, r) ↔
      ∃ rmid, p input = some (ab.1, rmid) ∧ q rmid = some (ab.2, r) := by
  obtain ⟨a0, b0⟩ := ab
  unfold pair
  cases hp : p input with
  | none => simp
  | some x =>
    obtain ⟨a, rmid⟩ := x
    simp only [Option.some.injEq, Prod.mk.injEq]
    constructor
    · intro h
      cases hq : q rmid with
      | none => rw [hq] at h; simp at h
      | some y =>
        obtain ⟨b, r2⟩ := y
        rw [hq] at h
        simp only [Option.some.injEq, Prod.mk.injEq] at h
        obtain ⟨⟨h1, h2⟩, h3⟩ := h
        subst h1; subst h2; subst h3
        exact ⟨rmid, ⟨rfl, rfl⟩, hq⟩
    · rintro ⟨rm2, ⟨ha, hr⟩, hq2⟩
      subst ha; subst hr
      rw [hq2]

theorem parameter_sectionless_shape (input : List Nat) (p : Parameter) (rest : List Nat)
    (h : parameter input = some (p, rest)) : SectionlessShape p := by
  intro hnone
  unfold parameter alt at h
  cases hr : regular_parameter input with
  | some x =>
    rw [hr] at h
    injection h with h
    obtain rfl : x = (p, rest) := h
    obtain ⟨a, ha, hp⟩ := (map_eq_some _ _ _ _ _).mp hr
    left
    exact ⟨a.2, by rw [hp]⟩
  | none =>
    rw [hr] at h
    unfold extended_parameter alt at h
    cases he : Nom.map (separatedPair extended_initial_name _equals extended_initial_value)
        (fun x => ({ name := x.1, value := Value.extended x.2 } : Parameter)) input with
    | some y =>
      rw [he] at h
      injection h with h
      obtain rfl : y = (p, rest) := h
      obtain ⟨a, ha, hp⟩ := (map_eq_some _ _ _ _ _).mp he
      obtain ⟨an, av⟩ := a
      unfold separatedPair at ha
      obtain ⟨rmid, ha1, ha2⟩ := (pair_eq_some _ _ _ _ _).mp ha
      unfold extended_initial_value at ha2
      obtain ⟨a2, ha2a, hav⟩ := (map_eq_some _ _ _ _ _).mp ha2
      right
      exact ⟨a2.1, a2.2.1, a2.2.2, by rw [hp]; exact congrArg Value.extended hav⟩
    | none =>
      rw [he] at h
      obtain ⟨a, ha, hp⟩ := (map_eq_some _ _ _ _ _).mp h
      obtain ⟨an, av⟩ := a
      unfold separatedPair at ha
      obtain ⟨rmid, ha1, ha2⟩ := (pair_eq_some _ _ _ _ _).mp ha
      unfold terminated at ha1
      obtain ⟨nm, hnm, hnmeq⟩ := (map_eq_some _ _ _ _ _).mp ha1
      obtain ⟨rm3, hnm1, hnm2⟩ := (pair_eq_some _ _ _ _ _).mp hnm
      unfold extended_other_names at hnm1
      obtain ⟨a3, ha3, hname⟩ := (map_eq_some _ _ _ _ _).mp hnm1
      have han : an = nm.1 := hnmeq
      have hname2 : nm.1 = ({ name := asciiStr a3.1, sectionNum := some a3.2 } : Name) := hname
      rw [hp, han, hname2] at hnone
      simp at hnone

theorem processParam_isSome (st : DPLState) (p : Parameter)
    (hshape : SectionlessShape p) : (processParam st p).isSome := by
  rcases hsec : p.name.sectionNum with _ | s
  · rcases hshape hsec with ⟨v, hv⟩ | ⟨e, lg, v, hv⟩ <;>
      simp [processParam, hsec, hv]
  · rcases hval : p.value with v | ev
    · simp [processParam, hsec, hval]
    · rcases ev with ⟨e, lg, v⟩ | v <;> simp [processParam, hsec, hval]

theorem foldlM_processParam_isSome :
    ∀ (l : List Parameter) (st : DPLState),
      (∀ p ∈ l, SectionlessShape p) → (l.foldlM processParam st).isSome := by
  intro l
  induction l with
  | nil => intro st _; simp
  | cons p rest ih =>
    intro st hall
    rw [List.foldlM_cons]
    have h1 := processParam_isSome st p (hall p (List.mem_cons_self _ _))
    cases hp : processParam st p with
    | none => rw [hp] at h1; simp at h1
    | some st1 =>
      have h2 := ih st1 (fun q hq => hall q (List.mem_cons_of_mem _ hq))
      exact h2

theorem parameter_list_shape (input : List Nat) (ps : List Parameter) (rest : List Nat)
    (h : _parameter_list input = some (ps, rest)) : ∀ p ∈ ps, SectionlessShape p := by
  unfold _parameter_list terminated at h
  obtain ⟨pr, hpr, hfst⟩ := (map_eq_some _ _ _ _ _).mp h
  obtain ⟨rmid, h1, h2⟩ := (pair_eq_some _ _ _ _ _).mp hpr
  have hps : pr.1 = ps := by rw [hfst]
  rw [hps] at h1
  have helem : ∀ einput a erest,
      preceded (pair (tag (strBytes ";")) Rfc5322.ofws) parameter einput = some (a, erest) →
      SectionlessShape a := by
    intro einput a erest he
    unfold preceded at he
    obtain ⟨pa, hpa, hsnd⟩ := (map_eq_some _ _ _ _ _).mp he
    obtain ⟨rm2, hq1, hq2⟩ := (pair_eq_some _ _ _ _ _).mp hpa
    have : pa.2 = a := by rw [hsnd]
    rw [this] at hq2
    exact parameter_sectionless_shape rm2 a erest hq2
  exact many0_forall _ SectionlessShape helem _ _ _ _ h1

/-- C6: for a name `k` all of whose parameters are section-less, the output
map entry is the last decoded extended-initial value if one exists, and
otherwise the last regular value: the last regular and last extended-initial
values are each independently retained, and the extended (decoded) value
overwrites the regular one because the `simple_encoded` map is merged into the
result after the plain `simple` map. -/
theorem dpl_sectionless_last_writer_wins (input : List Parameter)
    (out : List (String × String)) (k : String)
    (h : decode_parameter_list input = some out)
    (huns : ∀ p ∈ input, lowerStr p.name.name = k → p.name.sectionNum = none) :
    alLookup out k = ((extsOf input k).getLast?).or ((regsOf input k).getLast?) := by
  rw [dpl_lookup input out k h, segsOf_eq_nil_of_unsectioned input k huns]
  rfl

/-- C6 witness: an extended-initial then a regular value for the section-less
name `a`; the decoded extended value `"A"` wins over the later regular
`"x"`. -/
theorem dpl_sectionless_last_writer_wins_witness :
    decode_parameter_list c6input = some [("a", "A")] ∧
    alLookup [("a", "A")] "a" =
      ((extsOf c6input "a").getLast?).or ((regsOf c6input "a").getLast?) ∧
    ((extsOf c6input "a").getLast?).or ((regsOf c6input "a").getLast?) = some "A" :=
  ⟨by decide,
   dpl_sectionless_last_writer_wins c6input [("a", "A")] "a" (by decide) (by decide),
   by decide⟩

/-- C1 (amended): when name `k` has sectioned segments, the output entry is
the buffered segments decoded through the charset named by the *last*
extended-initial segment whose charset label is recognized (`HashMap::insert`
overwrites the per-name codec on every recognized extended-initial segment),
defaulting to UTF-8 when none is recognized — not the *first* as the spec
states. -/
theorem dpl_charset_of_flush_is_last (input : List Parameter)
    (out : List (String × String)) (k : String)
    (h : decode_parameter_list input = some out)
    (hsegs : segsOf input k ≠ []) :
    alLookup out k =
      some (decode_segments (segsOf input k) (((codecsOf input k).getLast?).getD .utf8)) := by
  rw [dpl_lookup input out k h]
  cases hs : segsOf input k with
  | nil => exact absurd hs hsegs
  | cons a l => rfl

/-- C1 witness: on `c1input` the flushed bytes `[0xC3, 0xA9]` decode through
the last recognized charset (UTF-8) to `"é"`. -/
theorem dpl_charset_of_flush_is_last_witness :
    decode_parameter_list c1input = some [("t", "é")] ∧
    alLookup [("t", "é")] "t" =
      some (decode_segments (segsOf c1input "t") (((codecsOf c1input "t").getLast?).getD .utf8)) :=
  ⟨by decide,
   dpl_charset_of_flush_is_last c1input [("t", "é")] "t" (by decide) (by decide)⟩

/-- C1 counterexample to the spec's *first*-charset rule: the first
extended-initial segment of `c1input` names windows-1252, which would decode
the buffered bytes to `"Ã©"`, but the code produces `"é"` (UTF-8, the last
recognized charset). -/
theorem dpl_charset_first_refuted :
    decode_parameter_list c1input = some [("t", "é")] ∧
    (codecsOf c1input "t").head? = some Encoding.windows1252 ∧
    decode_segments (segsOf c1input "t") Encoding.windows1252 = "Ã©" ∧
    ("é" : String) ≠ "Ã©" := by
  refine ⟨by decide, by decide, by decide, by decide⟩

/-- C2 (amended): reassembly of `(section, segment)` pairs is invariant under
permutation of the input order *provided the section numbers are pairwise
distinct* (the sort is only by section number and is stable, so duplicate
section numbers keep input order — see the counterexample). -/
theorem decode_segments_perm_invariant (l1 l2 : List (Nat × Segment)) (enc : Encoding)
    (hperm : l1.Perm l2) (hnodup : (l1.map Prod.fst).Nodup) :
    decode_segments l1 enc = decode_segments l2 enc := by
  have strict : ∀ (l : List (Nat × Segment)), List.Sorted sectionLE l →
      (l.map Prod.fst).Nodup → List.Sorted sectionKeyLT l := by
    intro l hs hn
    have hn2 : l.Pairwise (fun a b => a.1 ≠ b.1) := (List.pairwise_map).mp hn
    exact (hs.and hn2).imp (fun h => lt_of_le_of_ne h.1 h.2)
  have hn1 : ((List.insertionSort sectionLE l1).map Prod.fst).Nodup :=
    ((List.perm_insertionSort sectionLE l1).map Prod.fst).nodup_iff.mpr hnodup
  have hn2 : ((List.insertionSort sectionLE l2).map Prod.fst).Nodup :=
    ((List.perm_insertionSort sectionLE l2).map Prod.fst).nodup_iff.mpr
      ((hperm.map Prod.fst).nodup_iff.mp hnodup)
  have key : List.insertionSort sectionLE l1 = List.insertionSort sectionLE l2 :=
    List.eq_of_perm_of_sorted
      (((List.perm_insertionSort sectionLE l1).trans hperm).trans
        (List.perm_insertionSort sectionLE l2).symm)
      (strict _ (List.sorted_insertionSort sectionLE l1) hn1)
      (strict _ (List.sorted_insertionSort sectionLE l2) hn2)
  unfold decode_segments
  rw [key]

/-- C2 witness: the spec's example — sections 0 = `"hello"`, 1 = `"world"`
supplied in either order reassemble to `"helloworld"`. -/
theorem decode_segments_perm_invariant_witness :
    decode_segments [(0, Segment.decoded "hello"), (1, Segment.decoded "world")] .utf8 =
      decode_segments [(1, Segment.decoded "world"), (0, Segment.decoded "hello")] .utf8 ∧
    decode_segments [(0, Segment.decoded "hello"), (1, Segment.decoded "world")] .utf8 =
      "helloworld" :=
  ⟨decode_segments_perm_invariant _ _ _ (by decide) (by decide), by decide⟩

/-- C2 counterexample to invariance under *any* permutation: two segments
with the same section number 1 concatenate in input order, so swapping them
changes the composite value (`"ab"` vs `"ba"`). -/
theorem decode_parameter_list_perm_sensitive :
    c2inputA.Perm c2inputB ∧
    decode_parameter_list c2inputA = some [("title", "ab")] ∧
    decode_parameter_list c2inputB = some [("title", "ba")] ∧
    ("ab" : String) ≠ "ba" :=
  ⟨List.Perm.swap _ _ _, by decide, by decide, by decide⟩

/-- C10: every parameter produced by the RFC 2231 parameter-list parser with
a section-less name carries a regular or extended-initial value (the
`extended_other_names` branch always attaches a section number), so the
`unreachable!()` arm of `decode_parameter_list` (modelled as `none`) is never
taken, and `content_type` / `content_disposition` never panic: their parameter
maps are always `some`. -/
theorem rfc2231_no_unreachable (input : List Nat) :
    (∀ ps rest, _parameter_list input = some (ps, rest) →
       (∀ p ∈ ps, p.name.sectionNum = none →
          (∃ v, p.value = Value.regular v) ∨
            ∃ enc lang v, p.value = Value.extended (ExtendedValue.initial enc lang v))
       ∧ (decode_parameter_list ps).isSome)
    ∧ (∀ ct rest, content_type input = some (ct, rest) → ct.2.isSome)
    ∧ (∀ cd rest, content_disposition input = some (cd, rest) → cd.2.isSome) := by
  refine ⟨?_, ?_, ?_⟩
  · intro ps rest h
    have hshape := parameter_list_shape input ps rest h
    refine ⟨hshape, ?_⟩
    have hsome := foldlM_processParam_isSome ps initState hshape
    unfold decode_parameter_list
    cases hf : ps.foldlM processParam initState with
    | none => rw [hf] at hsome; simp at hsome
    | some st => simp
  · intro ct rest h
    unfold content_type at h
    obtain ⟨a, ha, hct⟩ := (map_eq_some _ _ _ _ _).mp h
    obtain ⟨rmid, h1, h2⟩ := (pair_eq_some _ _ _ _ _).mp ha
    have hshape := parameter_list_shape rmid a.2 rest h2
    have hsome := foldlM_processParam_isSome a.2 initState hshape
    rw [hct]
    show (decode_parameter_list a.2).isSome
    unfold decode_parameter_list
    cases hf : (a.2).foldlM processParam initState with
    | none => rw [hf] at hsome; simp at hsome
    | some st => simp
  · intro cd rest h
    unfold content_disposition at h
    obtain ⟨a, ha, hcd⟩ := (map_eq_some _ _ _ _ _).mp h
    obtain ⟨rmid, h1, h2⟩ := (pair_eq_some _ _ _ _ _).mp ha
    have hshape := parameter_list_shape rmid a.2 rest h2
    have hsome := foldlM_processParam_isSome a.2 initState hshape
    rw [hcd]
    show (decode_parameter_list a.2).isSome
    unfold decode_parameter_list
    cases hf : (a.2).foldlM processParam initState with
    | none => rw [hf] at hsome; simp at hsome
    | some st => simp

/-- C10 witness: `content_type` on `text/plain; charset=utf-8` succeeds with
a `some` parameter map. -/
theorem rfc2231_no_unreachable_witness :
    content_type (strBytes "text/plain; charset=utf-8") =
      some (("text/plain", some [("charset", "utf-8")]), []) ∧
    ((("text/plain", some [("charset", "utf-8")]) :
        String × Option (List (String × String))).2).isSome :=
  ⟨by decide,
   (rfc2231_no_unreachable (strBytes "text/plain; charset=utf-8")).2.1
     ("text/plain", some [("charset", "utf-8")]) [] (by decide)⟩

end Rfc2231

end RustyKnife
